import Mathlib

/-!
Verification of the scan/classify/fix pipeline of the Gemini-Pipeline
repository (src/src/gemini_healer.py, src/src/project_analyzer.py,
src/scripts/check_project.py) against its natural-language specification.

Strings are modelled as `List Char` (the ASCII fragment; `Char.toLower`
agrees with Python str.lower there).  The filesystem is modelled as the set
of regular files (paths as component lists) plus the set of directories that
exist on disk beyond those implied by files (Python os.makedirs creates
such directories).  Directory-walk enumeration order is unspecified in
Python (os.walk uses os.scandir order), so the file-list order of the model
stands for the walk order.  The project root is the default root path "."
used by the command-line entry points.
-/

namespace GeminiPipeline

abbrev Str := List Char

/-! ### Generic string lemmas: occurrences of a pattern in an append -/

/-- Decomposition of an infix of an append: it lies in the left part, in the
right part, or straddles the boundary. -/
theorem isInfix_append_iff {α : Type*} (s u v : List α) :
    s <:+: u ++ v ↔ s <:+: u ∨ s <:+: v ∨
      ∃ k, 0 < k ∧ k < s.length ∧ s.take k <:+ u ∧ s.drop k <+: v := by
  constructor
  · rintro ⟨a, b, hab⟩
    rcases le_or_lt (a.length + s.length) u.length with hle | hgt
    · left
      have h1 : a ++ s <+: u ++ v := ⟨b, by simpa using hab⟩
      have hp : a ++ s <+: u :=
        (List.isPrefix_append_of_length (by simpa using hle)).mp h1
      exact (List.IsSuffix.isInfix (List.suffix_append a s)).trans
        (List.IsPrefix.isInfix hp)
    rcases le_or_lt u.length a.length with hua | hau
    · right; left
      have hd := congrArg (List.drop u.length) hab
      rw [List.append_assoc, List.drop_append_of_le_length hua, List.drop_left] at hd
      refine ⟨a.drop u.length, b, ?_⟩
      rw [List.append_assoc]
      exact hd
    · right; right
      have hsplit : s.take (u.length - a.length) ++ (s.drop (u.length - a.length) ++ b)
          = s ++ b := by
        rw [← List.append_assoc, List.take_append_drop]
      have hkey : a ++ s.take (u.length - a.length) ++ (s.drop (u.length - a.length) ++ b)
          = u ++ v := by
        rw [List.append_assoc, hsplit, ← List.append_assoc, hab]
      refine ⟨u.length - a.length, by omega, by omega, ?_, ?_⟩
      · refine ⟨a, ?_⟩
        have h1 : a ++ s.take (u.length - a.length) <+: u ++ v :=
          ⟨s.drop (u.length - a.length) ++ b, hkey⟩
        have h2 : u <+: u ++ v := List.prefix_append u v
        have hlen : (a ++ s.take (u.length - a.length)).length = u.length := by
          simp only [List.length_append, List.length_take]
          omega
        exact (List.prefix_of_prefix_length_le h1 h2 (by omega)).eq_of_length hlen
      · have h1 : s.drop (u.length - a.length) ++ b <:+ u ++ v :=
          ⟨a ++ s.take (u.length - a.length), hkey⟩
        have h2 : v <:+ u ++ v := List.suffix_append u v
        have hlen : v.length = (s.drop (u.length - a.length) ++ b).length := by
          have := congrArg List.length hab
          simp only [List.length_append] at this ⊢
          simp only [List.length_drop]
          omega
        have heq : v = s.drop (u.length - a.length) ++ b :=
          (List.suffix_of_suffix_length_le h2 h1 (by omega)).eq_of_length hlen
        exact ⟨b, heq.symm⟩
  · rintro (⟨a, b, hab⟩ | ⟨a, b, hab⟩ | ⟨k, -, -, ⟨w, hw⟩, ⟨t, ht⟩⟩)
    · exact ⟨a, b ++ v, by rw [← hab]; simp⟩
    · exact ⟨u ++ a, b, by rw [← hab]; simp⟩
    · refine ⟨w, t, ?_⟩
      have hsplit : s.take k ++ (s.drop k ++ t) = s ++ t := by
        rw [← List.append_assoc, List.take_append_drop]
      rw [← hw, ← ht, List.append_assoc w (List.take k s), hsplit, ← List.append_assoc]

/-- If a pattern occurs in neither part of an append and cannot straddle the
boundary, it does not occur in the append. -/
theorem not_infix_append {α : Type*} {s u v : List α} (hu : ¬ s <:+: u) (hv : ¬ s <:+: v)
    (hb : ∀ k, k < s.length → 0 < k → ¬(s.take k <:+ u) ∨ ¬(s.drop k <+: v)) :
    ¬ s <:+: u ++ v := by
  rw [isInfix_append_iff]
  rintro (h | h | ⟨k, hk0, hk, h1, h2⟩)
  · exact hu h
  · exact hv h
  · rcases hb k hk hk0 with h | h
    · exact h h1
    · exact h h2

/-- Appending one element cannot create an occurrence of a pattern of length
at least two whose last element differs from the appended one. -/
theorem not_infix_append_singleton {α : Type*} {s u : List α} {c : α} (hu : ¬ s <:+: u)
    (hlen : 2 ≤ s.length) (hlast : s.getLast? ≠ some c) : ¬ s <:+: u ++ [c] := by
  refine not_infix_append hu (fun h => by have := h.length_le; simp at this; omega) ?_
  intro k hk hk0
  right
  intro hpre
  have hlength : (s.drop k).length ≤ 1 := by simpa using hpre.length_le
  have hdk : (s.drop k).length = s.length - k := by simp
  have h1 : (s.drop k).length = 1 := by omega
  have heq : s.drop k = [c] := hpre.eq_of_length (by simpa using h1)
  have hsc : s = s.take k ++ [c] := by rw [← heq, List.take_append_drop]
  rw [hsc] at hlast
  simp at hlast

theorem infix_singleton_iff_mem {α : Type*} {c : α} {l : List α} : [c] <:+: l ↔ c ∈ l := by
  constructor
  · intro h
    exact List.singleton_sublist.mp h.sublist
  · intro h
    obtain ⟨s, t, rfl⟩ := List.append_of_mem h
    exact ⟨s, t, by simp⟩

/-! ### Python str.split, modelled faithfully (leftmost, non-overlapping) -/

/-- First occurrence split: the part before the leftmost occurrence of `sep`
and the part after it, scanning left to right. -/
def pySplitFirst (sep : Str) : Str → Option (Str × Str)
  | [] => none
  | c :: rest =>
    if sep <+: (c :: rest) then some ([], (c :: rest).drop sep.length)
    else
      match pySplitFirst sep rest with
      | none => none
      | some (a, b) => some (c :: a, b)

theorem pySplitFirst_none_iff {sep : Str} (hsep : sep ≠ []) (s : Str) :
    pySplitFirst sep s = none ↔ ¬ sep <:+: s := by
  induction s with
  | nil =>
    simp only [pySplitFirst, true_iff]
    intro h
    have := h.length_le
    simp only [List.length_nil, Nat.le_zero] at this
    exact hsep (List.length_eq_zero.mp this)
  | cons c rest ih =>
    by_cases hp : sep <+: (c :: rest)
    · have hstep : pySplitFirst sep (c :: rest) = some ([], (c :: rest).drop sep.length) := by
        simp [pySplitFirst, hp]
      rw [hstep]
      simp only [reduceCtorEq, false_iff, not_not]
      exact List.IsPrefix.isInfix hp
    · have hstep : pySplitFirst sep (c :: rest) =
          match pySplitFirst sep rest with
          | none => none
          | some (a, b) => some (c :: a, b) := by
        simp [pySplitFirst, hp]
      rw [hstep, List.infix_cons_iff]
      cases hr : pySplitFirst sep rest with
      | none =>
        simp only [true_iff]
        rintro (h | h)
        · exact hp h
        · exact (ih.mp hr) h
      | some p =>
        simp only [reduceCtorEq, false_iff, not_not]
        right
        by_contra hni
        rw [ih.mpr hni] at hr
        exact Option.noConfusion hr

theorem pySplitFirst_eq {sep s a b : Str} (h : pySplitFirst sep s = some (a, b)) :
    s = a ++ sep ++ b := by
  induction s generalizing a b with
  | nil => exact Option.noConfusion h
  | cons c rest ih =>
    by_cases hp : sep <+: (c :: rest)
    · have hstep : pySplitFirst sep (c :: rest) = some ([], (c :: rest).drop sep.length) := by
        simp [pySplitFirst, hp]
      rw [hstep] at h
      obtain ⟨rfl, rfl⟩ : a = [] ∧ (c :: rest).drop sep.length = b := by
        constructor <;> [exact (Prod.mk.injEq _ _ _ _ ▸ Option.some.inj h).1.symm;
          exact (Prod.mk.injEq _ _ _ _ ▸ Option.some.inj h).2]
      obtain ⟨t, ht⟩ := hp
      rw [← ht, List.drop_left]
      simp
    · have hstep : pySplitFirst sep (c :: rest) =
          match pySplitFirst sep rest with
          | none => none
          | some (a, b) => some (c :: a, b) := by
        simp [pySplitFirst, hp]
      rw [hstep] at h
      cases hr : pySplitFirst sep rest with
      | none => rw [hr] at h; exact Option.noConfusion h
      | some p =>
        rw [hr] at h
        obtain ⟨a1, b1⟩ := p
        have h2 := Option.some.inj h
        have ha : c :: a1 = a := (Prod.mk.injEq _ _ _ _ ▸ h2).1
        have hb : b1 = b := (Prod.mk.injEq _ _ _ _ ▸ h2).2
        subst ha hb
        have := ih hr
        rw [this]
        simp

theorem pySplitFirst_length {sep s a b : Str} (hsep : sep ≠ [])
    (h : pySplitFirst sep s = some (a, b)) : b.length < s.length := by
  have hs := pySplitFirst_eq h
  have hlen := congrArg List.length hs
  simp only [List.length_append] at hlen
  have : 0 < sep.length := List.length_pos.mpr hsep
  omega

/-- Fuel-indexed repeated splitting; with fuel at least the length of the
string this computes Python str.split for a nonempty separator. -/
def pySplitAux (sep : Str) : Nat → Str → List Str
  | 0, s => [s]
  | fuel+1, s =>
    match pySplitFirst sep s with
    | none => [s]
    | some (a, b) => a :: pySplitAux sep fuel b

/-- Python s.split(sep) for a nonempty separator. -/
def pySplit (sep s : Str) : List Str := pySplitAux sep s.length s

theorem pySplitAux_congr {sep : Str} (hsep : sep ≠ []) :
    ∀ f₁ f₂ s, s.length ≤ f₁ → s.length ≤ f₂ → pySplitAux sep f₁ s = pySplitAux sep f₂ s := by
  intro f₁
  induction f₁ with
  | zero =>
    intro f₂ s h1 h2
    have hs : s = [] := List.length_eq_zero.mp (Nat.le_zero.mp h1)
    subst hs
    cases f₂ with
    | zero => rfl
    | succ g => simp [pySplitAux, pySplitFirst]
  | succ f ih =>
    intro f₂ s h1 h2
    cases f₂ with
    | zero =>
      have hs : s = [] := List.length_eq_zero.mp (Nat.le_zero.mp h2)
      subst hs
      simp [pySplitAux, pySplitFirst]
    | succ g =>
      cases hr : pySplitFirst sep s with
      | none => simp only [pySplitAux, hr]
      | some p =>
        obtain ⟨a, b⟩ := p
        have hb := pySplitFirst_length hsep hr
        simp only [pySplitAux, hr]
        rw [ih g b (by omega) (by omega)]

theorem pySplit_of_not_infix {sep s : Str} (hsep : sep ≠ []) (h : ¬ sep <:+: s) :
    pySplit sep s = [s] := by
  have hn : pySplitFirst sep s = none := (pySplitFirst_none_iff hsep s).mpr h
  cases s with
  | nil => rfl
  | cons c rest =>
    show pySplitAux sep (rest.length + 1) (c :: rest) = [c :: rest]
    simp [pySplitAux, hn]

theorem pySplitFirst_append {sep b : Str} (hsep : sep ≠ []) :
    ∀ a : Str, ¬ sep <:+: (a ++ sep.dropLast) →
      pySplitFirst sep (a ++ sep ++ b) = some (a, b) := by
  intro a
  induction a with
  | nil =>
    intro _
    obtain ⟨d, sd, rfl⟩ : ∃ d sd, sep = d :: sd := by
      cases sep with
      | nil => exact absurd rfl hsep
      | cons d sd => exact ⟨d, sd, rfl⟩
    have hshape : ([] : Str) ++ (d :: sd) ++ b = d :: (sd ++ b) := by simp
    rw [hshape]
    have hpre : d :: sd <+: d :: (sd ++ b) := ⟨b, by simp⟩
    have hstep : pySplitFirst (d :: sd) (d :: (sd ++ b)) =
        some ([], (d :: (sd ++ b)).drop (d :: sd).length) := by
      simp [pySplitFirst, hpre]
    rw [hstep]
    have hd : (d :: (sd ++ b)).drop (d :: sd).length = b := by
      have hform : d :: (sd ++ b) = (d :: sd) ++ b := by simp
      rw [hform, List.drop_left]
    rw [hd]
  | cons c a' ih =>
    intro hleft
    have hshape : (c :: a') ++ sep ++ b = c :: (a' ++ sep ++ b) := by simp
    have hnp : ¬ sep <+: c :: (a' ++ sep ++ b) := by
      intro hp
      have hsepdec : sep.dropLast ++ [sep.getLast hsep] = sep :=
        List.dropLast_append_getLast hsep
      have hpre2 : (c :: a') ++ sep.dropLast <+: c :: (a' ++ sep ++ b) := by
        refine ⟨[sep.getLast hsep] ++ b, ?_⟩
        have hexp : (c :: a') ++ sep.dropLast ++ ([sep.getLast hsep] ++ b)
            = (c :: a') ++ (sep.dropLast ++ [sep.getLast hsep]) ++ b := by
          simp [List.append_assoc]
        rw [hexp, hsepdec]
        simp
      have hlen : sep.length ≤ ((c :: a') ++ sep.dropLast).length := by
        have h1 : sep.dropLast.length = sep.length - 1 := List.length_dropLast sep
        have h2 : 0 < sep.length := List.length_pos.mpr hsep
        simp only [List.length_append, List.length_cons, h1]
        omega
      have := List.prefix_of_prefix_length_le hp hpre2 hlen
      exact hleft (List.IsPrefix.isInfix this)
    have hleft2 : ¬ sep <:+: (a' ++ sep.dropLast) := by
      intro h
      have hsuf : a' ++ sep.dropLast <:+ (c :: a') ++ sep.dropLast := ⟨[c], by simp⟩
      exact hleft (h.trans (List.IsSuffix.isInfix hsuf))
    have hstep : pySplitFirst sep (c :: (a' ++ sep ++ b)) =
        match pySplitFirst sep (a' ++ sep ++ b) with
        | none => none
        | some (a, b) => some (c :: a, b) := by
      simp only [pySplitFirst]
      rw [if_neg hnp]
    rw [hshape, hstep, ih hleft2]

theorem pySplit_append {sep a b : Str} (hsep : sep ≠ [])
    (hleft : ¬ sep <:+: (a ++ sep.dropLast)) :
    pySplit sep (a ++ sep ++ b) = a :: pySplit sep b := by
  have key := pySplitFirst_append hsep a hleft (b := b)
  have hlen : 0 < (a ++ sep ++ b).length := by
    have : 0 < sep.length := List.length_pos.mpr hsep
    simp only [List.length_append]
    omega
  obtain ⟨n, hn⟩ : ∃ n, (a ++ sep ++ b).length = n + 1 :=
    ⟨(a ++ sep ++ b).length - 1, by omega⟩
  have hb : b.length ≤ n := by
    have := pySplitFirst_length hsep key
    omega
  show pySplitAux sep (a ++ sep ++ b).length (a ++ sep ++ b) = a :: pySplit sep b
  rw [hn]
  simp only [pySplitAux, key]
  rw [pySplitAux_congr hsep n b.length b hb (le_refl _)]
  rfl

theorem infix_of_mem_pySplitAux {sep : Str} :
    ∀ fuel s x, x ∈ pySplitAux sep fuel s → x <:+: s := by
  intro fuel
  induction fuel with
  | zero =>
    intro s x hx
    simp only [pySplitAux, List.mem_singleton] at hx
    exact hx ▸ List.infix_rfl
  | succ f ih =>
    intro s x hx
    simp only [pySplitAux] at hx
    cases hr : pySplitFirst sep s with
    | none => rw [hr] at hx; simp only [List.mem_singleton] at hx; exact hx ▸ List.infix_rfl
    | some p =>
      obtain ⟨a, b⟩ := p
      rw [hr] at hx
      rcases List.mem_cons.mp hx with rfl | hx2
      · exact ⟨[], sep ++ b, by rw [pySplitFirst_eq hr]; simp⟩
      · have hxb := ih b x hx2
        have hbs : b <:+ s := ⟨a ++ sep, (pySplitFirst_eq hr).symm⟩
        exact hxb.trans (List.IsSuffix.isInfix hbs)

theorem infix_of_mem_pySplit {sep s x : Str} (hx : x ∈ pySplit sep s) : x <:+: s :=
  infix_of_mem_pySplitAux s.length s x hx

theorem pySplitAux_ne_nil {sep : Str} (fuel : Nat) (s : Str) : pySplitAux sep fuel s ≠ [] := by
  cases fuel with
  | zero => simp [pySplitAux]
  | succ f =>
    simp only [pySplitAux]
    cases pySplitFirst sep s with
    | none => simp
    | some p => obtain ⟨a, b⟩ := p; simp

theorem pySplit_ne_nil {sep s : Str} : pySplit sep s ≠ [] := pySplitAux_ne_nil _ _

/-! ### The classifier: GeminiAutoHealer.detect_file_issues -/

/-- Python str.lower on the ASCII fragment. -/
def pyLower (s : Str) : Str := s.map Char.toLower

/-- Characters matched by the regex class `[!@#$%^&*()\s]` (ASCII whitespace
as in Python re). -/
def bannedSpecial (c : Char) : Prop :=
  c ∈ "!@#$%^&*()".data ∨ c ∈ [' ', '\t', '\n', '\r', '\x0b', '\x0c']

instance (c : Char) : Decidable (bannedSpecial c) := by
  unfold bannedSpecial
  infer_instance

def critical_msg : Str :=
  "CRITICAL: index.htm should be index.html for Netlify deployment".data

def incorrect_ext_msg (n : Str) : Str :=
  "Incorrect extension: ".data ++ n ++ " should be ".data ++ n ++ "l".data

def special_msg (n : Str) : Str := "Special characters in filename: ".data ++ n

def spaces_msg (n : Str) : Str := "Spaces in filename: ".data ++ n

def upper_msg (n : Str) : Str := "Uppercase letters in filename: ".data ++ n

def suspicious_msg (n : Str) : Str := "Suspicious file extension: ".data ++ n

def misplaced_msg : Str := "index.html should be in public/ directory for Netlify".data

/-- GeminiAutoHealer.detect_file_issues (gemini_healer.py:133-164).
`file_dir` is the directory part of the path string (os.path.dirname),
`filename` the basename. -/
def detect_file_issues (file_dir filename : Str) : List Str :=
  (if filename = "index.htm".data then [critical_msg] else []) ++
  (if ".htm".data <:+ filename ∧ ¬ (".html".data <:+ filename)
    then [incorrect_ext_msg filename] else []) ++
  (if ∃ c ∈ filename.filter (fun c => !(c == ' ' || c == '-' || c == '_')), bannedSpecial c
    then [special_msg filename] else []) ++
  (if ' ' ∈ filename then [spaces_msg filename] else []) ++
  (if filename ≠ pyLower filename ∧
      ¬ (".md".data <:+ filename ∨ ".txt".data <:+ filename ∨
         ".json".data <:+ filename ∨ ".gitignore".data <:+ filename)
    then [upper_msg filename] else []) ++
  (if ".jx".data <:+ filename ∨ ".cssx".data <:+ filename
    then [suspicious_msg filename] else []) ++
  (if filename = "index.html".data ∧ ¬ ("public".data <:+: file_dir)
    then [misplaced_msg] else [])

/-! ### The deterministic fixer: GeminiAutoHealer.create_automatic_fixes -/

/-- A fix action as parsed from the advisory JSON or built by the
deterministic strategy: all four fields are strings, as in the Python dict
(keys action / from / to / reason). -/
structure FixAction where
  act : Str
  src : Str
  dst : Str
  reason : Str
deriving DecidableEq, Repr

def sepColon : Str := ": ".data
def sepShouldBe : Str := " should be".data

def pub_fix : FixAction :=
  ⟨"rename".data, "public/index.htm".data, "public/index.html".data,
    "Netlify requires .html extension for main file".data⟩

/-- The body of the loop in GeminiAutoHealer.create_automatic_fixes
(gemini_healer.py:89-105): the fix contributed by one issue string.
Python indexes `issue.split(": ")[1]` without a bounds check; every issue
string reaching that branch in the pipeline contains ": ", and the model
uses the empty string as the out-of-range default. -/
def fix_for_issue (issue : Str) : List FixAction :=
  if "index.htm".data <:+: issue ∧ "should be".data <:+: issue then
    [pub_fix]
  else if ".htm".data <:+: issue ∧ "should be".data <:+: issue then
    let part := (pySplit sepColon issue).getD 1 []
    let original := (pySplit sepShouldBe part).headD []
    [⟨"rename".data, original, original ++ "l".data, "Fix HTML file extension".data⟩]
  else []

/-- GeminiAutoHealer.create_automatic_fixes (gemini_healer.py:84-107). -/
def create_automatic_fixes (issues : List Str) : List FixAction :=
  issues.flatMap fix_for_issue

/-! ### The filesystem model and GeminiAutoHealer.apply_fixes -/

/-- A path is a list of components (no separators inside a component). -/
abbrev FPath := List Str

/-- Filesystem state: the regular files present, plus directories that exist
on disk beyond those implied as ancestors of files (os.makedirs creates
such directories; the root directory always exists). -/
structure FS where
  files : List FPath
  dirs : List FPath
deriving DecidableEq, Repr

/-- The path names a directory: the root, an explicitly created directory,
or a proper ancestor of an existing file. -/
def isDirOf (fs : FS) (p : FPath) : Prop :=
  p = [] ∨ p ∈ fs.dirs ∨ ∃ f ∈ fs.files, p <+: f ∧ p ≠ f

instance (fs : FS) (p : FPath) : Decidable (isDirOf fs p) := by
  unfold isDirOf
  infer_instance

/-- os.path.exists for a path without a trailing slash. -/
def pathExists (fs : FS) (p : FPath) : Prop := p ∈ fs.files ∨ isDirOf fs p

instance (fs : FS) (p : FPath) : Decidable (pathExists fs p) := by
  unfold pathExists
  infer_instance

def sepSlash : Str := "/".data

/-- Parse a (leading-slash-stripped) relative path string into components
and a trailing-slash flag, as the os.path functions treat it. -/
def parseRel (s : Str) : FPath × Bool :=
  ((pySplit sepSlash s).filter (fun c => !c.isEmpty), s.getLast? == some '/')

/-- os.path.exists on the joined path string: a trailing slash restricts the
hit to directories. -/
def strPathExists (fs : FS) (pr : FPath × Bool) : Prop :=
  if pr.2 then isDirOf fs pr.1 else pathExists fs pr.1

instance (fs : FS) (pr : FPath × Bool) : Decidable (strPathExists fs pr) := by
  unfold strPathExists
  infer_instance

/-- The nonempty prefixes of a path: the directories os.makedirs touches. -/
def neInits (p : FPath) : List FPath := (List.range p.length).map (fun k => p.take (k+1))

/-- os.makedirs(p, exist_ok=True): fails when some component of `p` exists
as a regular file, otherwise registers the missing directories. -/
def makedirs (fs : FS) (p : FPath) : Option FS :=
  if ∃ q ∈ neInits p, q ∈ fs.files then none
  else some { fs with dirs := fs.dirs ++ (neInits p).filter (fun q => !(decide (q ∈ fs.dirs))) }

/-- Move everything under `src` to sit under `dst`. -/
def remapUnder (src dst f : FPath) : FPath :=
  if src <+: f then dst ++ f.drop src.length else f

/-- os.rename on the same filesystem: a file overwrites a destination file
and fails on a destination directory; a directory moves wholesale and fails
on an occupied destination or when renaming into itself. -/
def osRename (fs : FS) (src dst : FPath) : Option FS :=
  if src ∈ fs.files then
    if isDirOf fs dst then none
    else some { fs with files := dst :: fs.files.filter (fun f => !(f == src) && !(f == dst)) }
  else if isDirOf fs src then
    if src <+: dst ∨ dst ∈ fs.files ∨ (∃ f ∈ fs.files, dst <+: f ∧ dst ≠ f) then none
    else some { files := fs.files.map (remapUnder src dst),
                dirs := fs.dirs.map (remapUnder src dst) }
  else none

def basenameOf (p : FPath) : FPath := p.drop (p.length - 1)

/-- shutil.move on one filesystem: into an existing directory the source is
moved inside it, otherwise os.rename semantics. -/
def shutil_move (fs : FS) (src dst : FPath) : Option FS :=
  osRename fs src (if isDirOf fs dst then dst ++ basenameOf src else dst)

/-- One entry of the applied-fixes log (the FixLog of the spec); the
payloads are the relative path strings interpolated by the Python code. -/
inductive LogEntry where
  | criticalFix (srcRel dstRel : Str) : LogEntry
  | renamed (srcRel dstRel : Str) : LogEntry
  | created (dstRel : Str) : LogEntry
deriving DecidableEq, Repr

def criticalFixList : List (Str × Str) :=
  [("public/index.htm".data, "public/index.html".data),
   ("index.htm".data, "public/index.html".data)]

/-- One iteration of GeminiAutoHealer.apply_critical_fixes
(gemini_healer.py:210-221): a hard-coded move wrapped in its own
try/except (a failure after makedirs keeps the created directories, as in
Python). -/
def critical_step (st : FS × List LogEntry) (ft : Str × Str) : FS × List LogEntry :=
  let fc := (parseRel ft.1).1
  let tc := (parseRel ft.2).1
  if pathExists st.1 fc then
    match makedirs st.1 tc.dropLast with
    | none => st
    | some fs1 =>
      match shutil_move fs1 fc tc with
      | none => (fs1, st.2)
      | some fs2 => (fs2, st.2 ++ [LogEntry.criticalFix ft.1 ft.2])
  else st

/-- GeminiAutoHealer.apply_critical_fixes (gemini_healer.py:202-221). -/
def apply_critical_fixes (fs : FS) : FS × List LogEntry :=
  criticalFixList.foldl critical_step (fs, [])

/-- The directory os.makedirs receives: os.path.dirname of the destination;
for a path with a trailing slash dirname strips only the slash. -/
def dirnameOf (pr : FPath × Bool) : FPath := if pr.2 then pr.1 else pr.1.dropLast

/-- One iteration of the loop in GeminiAutoHealer.apply_fixes
(gemini_healer.py:174-198): any exception is caught and yields no log
entry (directories already created by makedirs persist). -/
def apply_one_fix (fs : FS) (fx : FixAction) : FS × List LogEntry :=
  let f' := fx.src.dropWhile (· = '/')
  let t' := fx.dst.dropWhile (· = '/')
  let fp := parseRel f'
  let tp := parseRel t'
  if fx.act = "rename".data then
    if strPathExists fs fp ∧ f' ≠ t' then
      match makedirs fs (dirnameOf tp) with
      | none => (fs, [])
      | some fs1 =>
        match osRename fs1 fp.1 tp.1 with
        | none => (fs1, [])
        | some fs2 => (fs2, [LogEntry.renamed f' t'])
    else (fs, [])
  else if fx.act = "create".data then
    if ¬ strPathExists fs tp then
      match makedirs fs (dirnameOf tp) with
      | none => (fs, [])
      | some fs1 =>
        if tp.2 then (fs1, [LogEntry.created t'])
        else if tp.1 = [] then (fs1, [])
        else ({ fs1 with files := tp.1 :: fs1.files }, [LogEntry.created t'])
    else (fs, [])
  else (fs, [])

/-- One step of the loop in apply_fixes: run one fix on the state and
append its log contribution. -/
def apply_fix_step (st : FS × List LogEntry) (fx : FixAction) : FS × List LogEntry :=
  ((apply_one_fix st.1 fx).1, st.2 ++ (apply_one_fix st.1 fx).2)

/-- GeminiAutoHealer.apply_fixes (gemini_healer.py:166-200): the critical
fixes run first, then the proposed fixes one by one. -/
def apply_fixes (fixes : List FixAction) (fs : FS) : FS × List LogEntry :=
  fixes.foldl apply_fix_step (apply_critical_fixes fs)

/-! ### The walker: GeminiAutoHealer.scan_project_structure, and the run -/

/-- The os.walk root string for a directory given by components, under the
default project root "." (os.path.join semantics). -/
def dirString (comps : FPath) : Str := ".".data ++ comps.flatMap (fun c => '/' :: c)

def skipDirStr (d : Str) : Prop :=
  ".git".data <:+: d ∨ "__pycache__".data <:+: d ∨ "node_modules".data <:+: d

instance (d : Str) : Decidable (skipDirStr d) := by
  unfold skipDirStr
  infer_instance

def skipFileName (n : Str) : Prop := n = ".DS_Store".data ∨ n = "Thumbs.db".data

instance (n : Str) : Decidable (skipFileName n) := by
  unfold skipFileName
  infer_instance

/-- The issue list accumulated by GeminiAutoHealer.scan_project_structure
(gemini_healer.py:109-131); the file-list order stands for the unspecified
os.walk order, and os.walk reaches subdirectories of skipped directories,
whose root strings keep the skip substring. -/
def scan_issues (fs : FS) : List Str :=
  fs.files.flatMap fun p =>
    if skipDirStr (dirString p.dropLast) ∨ skipFileName (p.getLastD []) then []
    else detect_file_issues (dirString p.dropLast) (p.getLastD [])

/-- GeminiAutoHealer.run_auto_heal (gemini_healer.py:223-248) in degraded
mode, where analyze_with_gemini has fallen back to the deterministic
create_automatic_fixes (see analyze_with_gemini below): scan, return
unchanged when no issues, otherwise propose and apply. -/
def run_auto_heal (fs : FS) : FS × List LogEntry :=
  let issues := scan_issues fs
  if issues = [] then (fs, [])
  else apply_fixes (create_automatic_fixes issues) fs

/-! ### The advisory strategy: GeminiAutoHealer.analyze_with_gemini -/

/-- Outcome of the requests.post call: a raised exception (network failure,
timeout, unparsable response body, json.loads failure — all land in the
same except handler) or an HTTP response with status code and the candidate
text at candidates[0].content.parts[0].text when present. -/
inductive GeminiOutcome where
  | requestError : GeminiOutcome
  | response (statusCode : Nat) (candidateText : Option Str) : GeminiOutcome

/-- GeminiAutoHealer.analyze_with_gemini (gemini_healer.py:53-82).
`extractJson` stands for the composite of `re.search(r'\{.*\}', content,
re.DOTALL)` and `json.loads` followed by reading the fixes list: `none`
covers both a missing JSON-looking block and a loads failure (the latter
raises and is caught by the same except handler, falling back). -/
def analyze_with_gemini (extractJson : Str → Option (List FixAction))
    (outcome : GeminiOutcome) (issues : List Str) : List FixAction :=
  match outcome with
  | .requestError => create_automatic_fixes issues
  | .response status cand =>
    if status = 200 then
      match cand with
      | some text =>
        match extractJson text with
        | some fixes => fixes
        | none => create_automatic_fixes issues
      | none => create_automatic_fixes issues
    else create_automatic_fixes issues

/-! ### The scan-only analyzer: project_analyzer.py and check_project.py -/

/-- The str(Path(root) / file) seen by analyze_project_structure: for root
"." pathlib normalizes away the leading "./". -/
def relString (p : FPath) : Str :=
  match p with
  | [] => []
  | c :: rest => c ++ rest.flatMap (fun x => '/' :: x)

/-- The per-file checks of analyze_project_structure
(project_analyzer.py:31-39). -/
def analyze_file_issues (fpStr n : Str) : List Str :=
  (if ' ' ∈ n then ["Space in filename: ".data ++ fpStr] else []) ++
  (if n ≠ pyLower n ∧ ¬ ("README".data <+: n)
    then ["Uppercase in filename: ".data ++ fpStr] else []) ++
  (if ".jx".data <:+ n ∨ ".htm".data <:+ n
    then ["Non-standard extension: ".data ++ fpStr] else [])

structure Analysis where
  issues : List Str
  recommendations : List Str
  file_count : Nat
  directory_count : Nat
deriving DecidableEq, Repr

/-- The directories os.walk enumerates: the root and every ancestor
directory of a file or created directory. -/
def allDirsOf (fs : FS) : List FPath :=
  ([] :: (fs.files.map (fun p => p.dropLast) ++ fs.dirs).flatMap neInits).dedup

/-- analyze_project_structure (project_analyzer.py:10-48) at root ".". -/
def analyze_project_structure (fs : FS) : Analysis :=
  let scanned := fs.files.filter (fun p => !(decide (skipDirStr (dirString p.dropLast))))
  { issues := scanned.flatMap (fun p => analyze_file_issues (relString p) (p.getLastD []))
    recommendations :=
      (if ¬ pathExists fs ["public".data, "index.html".data]
        then ["Create public/index.html for Netlify".data] else []) ++
      (if ¬ pathExists fs ["netlify.toml".data]
        then ["Add netlify.toml for deployment config".data] else [])
    file_count := scanned.length
    directory_count :=
      ((allDirsOf fs).filter (fun d => !(decide (skipDirStr (dirString d))))).length }

/-- scripts/check_project.py main: prints the report and calls
sys.exit(len(report['issues'])): the requested exit status. -/
def check_project_exit (fs : FS) : Nat := (analyze_project_structure fs).issues.length

/-! ### Helper lemmas about the issue messages -/

theorem mem_ite_singleton {c : Prop} [Decidable c] {x m : Str} :
    x ∈ (if c then [m] else []) ↔ c ∧ x = m := by
  split
  · rename_i hc
    simp [hc]
  · rename_i hc
    simp [hc]

theorem append_ne_of_take_ne {F G a b : Str} (k : Nat) (h1 : k ≤ F.length)
    (h2 : k ≤ G.length) (hne : F.take k ≠ G.take k) : F ++ a ≠ G ++ b := by
  intro he
  have := congrArg (List.take k) he
  rw [List.take_append_of_le_length h1, List.take_append_of_le_length h2] at this
  exact hne this

theorem append_ne_const_of_take_ne {F c a : Str} (k : Nat) (h1 : k ≤ F.length)
    (hne : F.take k ≠ c.take k) : F ++ a ≠ c := by
  intro he
  apply hne
  rw [← he, List.take_append_of_le_length h1]

/-- The first three characters of the seven issue messages are pairwise
distinct across kinds, so a message determines the rule that produced it. -/
theorem incorrect_ext_msg_shape (n : Str) : incorrect_ext_msg n =
    "Incorrect extension: ".data ++ (n ++ " should be ".data ++ n ++ "l".data) := by
  simp [incorrect_ext_msg, List.append_assoc]

theorem critical_mem_detect_iff (d n : Str) :
    critical_msg ∈ detect_file_issues d n ↔ n = "index.htm".data := by
  unfold detect_file_issues
  simp only [List.mem_append, mem_ite_singleton]
  constructor
  · rintro (((((((⟨hc, -⟩ | ⟨-, he⟩) | ⟨-, he⟩) | ⟨-, he⟩) | ⟨-, he⟩) | ⟨-, he⟩) | ⟨-, he⟩))
    · exact hc
    · exact absurd he.symm (by
        rw [incorrect_ext_msg_shape]
        exact append_ne_const_of_take_ne 3 (by decide) (by decide))
    · exact absurd he.symm (append_ne_const_of_take_ne 3 (by decide) (by decide))
    · exact absurd he.symm (append_ne_const_of_take_ne 3 (by decide) (by decide))
    · exact absurd he.symm (append_ne_const_of_take_ne 3 (by decide) (by decide))
    · exact absurd he.symm (append_ne_const_of_take_ne 3 (by decide) (by decide))
    · exact absurd he (by decide)
  · intro h
    exact Or.inl (Or.inl (Or.inl (Or.inl (Or.inl (Or.inl ⟨h, trivial⟩)))))

theorem incorrect_mem_detect_iff (d n : Str) :
    incorrect_ext_msg n ∈ detect_file_issues d n ↔
      ".htm".data <:+ n ∧ ¬ (".html".data <:+ n) := by
  unfold detect_file_issues
  simp only [List.mem_append, mem_ite_singleton]
  constructor
  · rintro (((((((⟨-, he⟩ | ⟨hc, -⟩) | ⟨-, he⟩) | ⟨-, he⟩) | ⟨-, he⟩) | ⟨-, he⟩) | ⟨-, he⟩))
    · exact absurd he (by
        rw [incorrect_ext_msg_shape]
        exact append_ne_const_of_take_ne 3 (by decide) (by decide))
    · exact hc
    · exact absurd he (by
        rw [incorrect_ext_msg_shape]
        exact append_ne_of_take_ne 3 (by decide) (by decide) (by decide))
    · exact absurd he (by
        rw [incorrect_ext_msg_shape]
        exact append_ne_of_take_ne 3 (by decide) (by decide) (by decide))
    · exact absurd he (by
        rw [incorrect_ext_msg_shape]
        exact append_ne_of_take_ne 3 (by decide) (by decide) (by decide))
    · exact absurd he (by
        rw [incorrect_ext_msg_shape]
        exact append_ne_of_take_ne 3 (by decide) (by decide) (by decide))
    · exact absurd he (by
        rw [incorrect_ext_msg_shape]
        exact append_ne_const_of_take_ne 3 (by decide) (by decide))
  · intro h
    exact Or.inl (Or.inl (Or.inl (Or.inl (Or.inl (Or.inr ⟨h, trivial⟩)))))

theorem special_mem_detect_iff (d n : Str) :
    special_msg n ∈ detect_file_issues d n ↔
      ∃ c ∈ n.filter (fun c => !(c == ' ' || c == '-' || c == '_')), bannedSpecial c := by
  unfold detect_file_issues
  simp only [List.mem_append, mem_ite_singleton]
  constructor
  · rintro (((((((⟨-, he⟩ | ⟨-, he⟩) | ⟨hc, -⟩) | ⟨-, he⟩) | ⟨-, he⟩) | ⟨-, he⟩) | ⟨-, he⟩))
    · exact absurd he (append_ne_const_of_take_ne 3 (by decide) (by decide))
    · exact absurd he (by
        rw [incorrect_ext_msg_shape]
        exact (append_ne_of_take_ne 3 (by decide) (by decide) (by decide)).symm)
    · exact hc
    · exact absurd he (append_ne_of_take_ne 3 (by decide) (by decide) (by decide))
    · exact absurd he (append_ne_of_take_ne 3 (by decide) (by decide) (by decide))
    · exact absurd he (append_ne_of_take_ne 3 (by decide) (by decide) (by decide))
    · exact absurd he (append_ne_const_of_take_ne 3 (by decide) (by decide))
  · intro h
    exact Or.inl (Or.inl (Or.inl (Or.inl (Or.inr ⟨h, trivial⟩))))

theorem spaces_mem_detect_iff (d n : Str) :
    spaces_msg n ∈ detect_file_issues d n ↔ ' ' ∈ n := by
  unfold detect_file_issues
  simp only [List.mem_append, mem_ite_singleton]
  constructor
  · rintro (((((((⟨-, he⟩ | ⟨-, he⟩) | ⟨-, he⟩) | ⟨hc, -⟩) | ⟨-, he⟩) | ⟨-, he⟩) | ⟨-, he⟩))
    · exact absurd he (append_ne_const_of_take_ne 3 (by decide) (by decide))
    · exact absurd he (by
        rw [incorrect_ext_msg_shape]
        exact (append_ne_of_take_ne 3 (by decide) (by decide) (by decide)).symm)
    · exact absurd he (append_ne_of_take_ne 3 (by decide) (by decide) (by decide))
    · exact hc
    · exact absurd he (append_ne_of_take_ne 3 (by decide) (by decide) (by decide))
    · exact absurd he (append_ne_of_take_ne 3 (by decide) (by decide) (by decide))
    · exact absurd he (append_ne_const_of_take_ne 3 (by decide) (by decide))
  · intro h
    exact Or.inl (Or.inl (Or.inl (Or.inr ⟨h, trivial⟩)))

theorem upper_mem_detect_iff (d n : Str) :
    upper_msg n ∈ detect_file_issues d n ↔
      (n ≠ pyLower n ∧
        ¬ (".md".data <:+ n ∨ ".txt".data <:+ n ∨
           ".json".data <:+ n ∨ ".gitignore".data <:+ n)) := by
  unfold detect_file_issues
  simp only [List.mem_append, mem_ite_singleton]
  constructor
  · rintro (((((((⟨-, he⟩ | ⟨-, he⟩) | ⟨-, he⟩) | ⟨-, he⟩) | ⟨hc, -⟩) | ⟨-, he⟩) | ⟨-, he⟩))
    · exact absurd he (append_ne_const_of_take_ne 3 (by decide) (by decide))
    · exact absurd he (by
        rw [incorrect_ext_msg_shape]
        exact (append_ne_of_take_ne 3 (by decide) (by decide) (by decide)).symm)
    · exact absurd he (append_ne_of_take_ne 3 (by decide) (by decide) (by decide))
    · exact absurd he (append_ne_of_take_ne 3 (by decide) (by decide) (by decide))
    · exact hc
    · exact absurd he (append_ne_of_take_ne 3 (by decide) (by decide) (by decide))
    · exact absurd he (append_ne_const_of_take_ne 3 (by decide) (by decide))
  · intro h
    exact Or.inl (Or.inl (Or.inr ⟨h, trivial⟩))

theorem suspicious_mem_detect_iff (d n : Str) :
    suspicious_msg n ∈ detect_file_issues d n ↔
      (".jx".data <:+ n ∨ ".cssx".data <:+ n) := by
  unfold detect_file_issues
  simp only [List.mem_append, mem_ite_singleton]
  constructor
  · rintro (((((((⟨-, he⟩ | ⟨-, he⟩) | ⟨-, he⟩) | ⟨-, he⟩) | ⟨-, he⟩) | ⟨hc, -⟩) | ⟨-, he⟩))
    · exact absurd he (append_ne_const_of_take_ne 3 (by decide) (by decide))
    · exact absurd he (by
        rw [incorrect_ext_msg_shape]
        exact (append_ne_of_take_ne 3 (by decide) (by decide) (by decide)).symm)
    · exact absurd he (append_ne_of_take_ne 3 (by decide) (by decide) (by decide))
    · exact absurd he (append_ne_of_take_ne 3 (by decide) (by decide) (by decide))
    · exact absurd he (append_ne_of_take_ne 3 (by decide) (by decide) (by decide))
    · exact hc
    · exact absurd he (append_ne_const_of_take_ne 3 (by decide) (by decide))
  · intro h
    exact Or.inl (Or.inr ⟨h, trivial⟩)

theorem misplaced_mem_detect_iff (d n : Str) :
    misplaced_msg ∈ detect_file_issues d n ↔
      (n = "index.html".data ∧ ¬ ("public".data <:+: d)) := by
  unfold detect_file_issues
  simp only [List.mem_append, mem_ite_singleton]
  constructor
  · rintro (((((((⟨-, he⟩ | ⟨-, he⟩) | ⟨-, he⟩) | ⟨-, he⟩) | ⟨-, he⟩) | ⟨-, he⟩) | ⟨hc, -⟩))
    · exact absurd he.symm (by decide)
    · exact absurd he.symm (by
        rw [incorrect_ext_msg_shape]
        exact append_ne_const_of_take_ne 3 (by decide) (by decide))
    · exact absurd he.symm (append_ne_const_of_take_ne 3 (by decide) (by decide))
    · exact absurd he.symm (append_ne_const_of_take_ne 3 (by decide) (by decide))
    · exact absurd he.symm (append_ne_const_of_take_ne 3 (by decide) (by decide))
    · exact absurd he.symm (append_ne_const_of_take_ne 3 (by decide) (by decide))
    · exact hc
  · intro h
    exact Or.inr ⟨h, trivial⟩

/-! ### Rule order: ranks of the issue kinds -/

/-- The rule order claimed by the spec: SPACE, SPECIAL_CHAR, UPPERCASE,
BAD_EXTENSION (CRITICAL, Incorrect extension and Suspicious), MISPLACED. -/
def spec_rank (i : Str) : Nat :=
  if "Spaces".data <+: i then 0
  else if "Special".data <+: i then 1
  else if "Uppercase".data <+: i then 2
  else if "index.html should".data <+: i then 4
  else 3

/-- The order in which detect_file_issues actually appends: CRITICAL,
Incorrect extension, Special characters, Spaces, Uppercase, Suspicious,
misplaced index. -/
def code_rank (i : Str) : Nat :=
  if "CRITICAL".data <+: i then 0
  else if "Incorrect".data <+: i then 1
  else if "Special".data <+: i then 2
  else if "Spaces".data <+: i then 3
  else if "Uppercase".data <+: i then 4
  else if "Suspicious".data <+: i then 5
  else 6

theorem code_rank_critical : code_rank critical_msg = 0 := by decide

theorem code_rank_misplaced : code_rank misplaced_msg = 6 := by decide

theorem code_rank_incorrect (n : Str) : code_rank (incorrect_ext_msg n) = 1 := by
  rw [incorrect_ext_msg_shape]
  unfold code_rank
  rw [if_neg (by rw [List.isPrefix_append_of_length (by decide)]; decide),
      if_pos (by rw [List.isPrefix_append_of_length (by decide)]; decide)]

theorem code_rank_special (n : Str) : code_rank (special_msg n) = 2 := by
  unfold code_rank special_msg
  rw [if_neg (by rw [List.isPrefix_append_of_length (by decide)]; decide),
      if_neg (by rw [List.isPrefix_append_of_length (by decide)]; decide),
      if_pos (by rw [List.isPrefix_append_of_length (by decide)]; decide)]

theorem code_rank_spaces (n : Str) : code_rank (spaces_msg n) = 3 := by
  unfold code_rank spaces_msg
  rw [if_neg (by rw [List.isPrefix_append_of_length (by decide)]; decide),
      if_neg (by rw [List.isPrefix_append_of_length (by decide)]; decide),
      if_neg (by rw [List.isPrefix_append_of_length (by decide)]; decide),
      if_pos (by rw [List.isPrefix_append_of_length (by decide)]; decide)]

theorem code_rank_upper (n : Str) : code_rank (upper_msg n) = 4 := by
  unfold code_rank upper_msg
  rw [if_neg (by rw [List.isPrefix_append_of_length (by decide)]; decide),
      if_neg (by rw [List.isPrefix_append_of_length (by decide)]; decide),
      if_neg (by rw [List.isPrefix_append_of_length (by decide)]; decide),
      if_neg (by rw [List.isPrefix_append_of_length (by decide)]; decide),
      if_pos (by rw [List.isPrefix_append_of_length (by decide)]; decide)]

theorem code_rank_suspicious (n : Str) : code_rank (suspicious_msg n) = 5 := by
  unfold code_rank suspicious_msg
  rw [if_neg (by rw [List.isPrefix_append_of_length (by decide)]; decide),
      if_neg (by rw [List.isPrefix_append_of_length (by decide)]; decide),
      if_neg (by rw [List.isPrefix_append_of_length (by decide)]; decide),
      if_neg (by rw [List.isPrefix_append_of_length (by decide)]; decide),
      if_neg (by rw [List.isPrefix_append_of_length (by decide)]; decide),
      if_pos (by rw [List.isPrefix_append_of_length (by decide)]; decide)]

theorem pairwise_rank_append {r : Str → Nat} {l₁ l₂ : List Str} {k : Nat}
    (h₁ : List.Pairwise (fun a b => r a ≤ r b) l₁)
    (h₂ : List.Pairwise (fun a b => r a ≤ r b) l₂)
    (hb₁ : ∀ x ∈ l₁, r x ≤ k) (hb₂ : ∀ x ∈ l₂, k ≤ r x) :
    List.Pairwise (fun a b => r a ≤ r b) (l₁ ++ l₂) :=
  List.pairwise_append.mpr ⟨h₁, h₂, fun a ha b hb => (hb₁ a ha).trans (hb₂ b hb)⟩

theorem pairwise_ite_singleton {r : Str → Nat} {c : Prop} [Decidable c] {m : Str} :
    List.Pairwise (fun a b => r a ≤ r b) (if c then [m] else []) := by
  split <;> simp

theorem rank_bound_ite {r : Str → Nat} {c : Prop} [Decidable c] {m : Str} {k : Nat}
    (h : r m = k) : ∀ x ∈ (if c then [m] else []), r x = k := by
  intro x hx
  rcases mem_ite_singleton.mp hx with ⟨-, rfl⟩
  exact h

/-- The list returned by detect_file_issues is sorted by the order in which
the source appends the rule results. -/
theorem detect_pairwise_code_rank (d n : Str) :
    List.Pairwise (fun a b => code_rank a ≤ code_rank b) (detect_file_issues d n) := by
  unfold detect_file_issues
  have b1 := rank_bound_ite (r := code_rank)
    (c := n = "index.htm".data) code_rank_critical
  have b2 := rank_bound_ite (r := code_rank)
    (c := ".htm".data <:+ n ∧ ¬ (".html".data <:+ n)) (code_rank_incorrect n)
  have b3 := rank_bound_ite (r := code_rank)
    (c := ∃ c ∈ n.filter (fun c => !(c == ' ' || c == '-' || c == '_')), bannedSpecial c)
    (code_rank_special n)
  have b4 := rank_bound_ite (r := code_rank) (c := ' ' ∈ n) (code_rank_spaces n)
  have b5 := rank_bound_ite (r := code_rank)
    (c := n ≠ pyLower n ∧
      ¬ (".md".data <:+ n ∨ ".txt".data <:+ n ∨ ".json".data <:+ n ∨
        ".gitignore".data <:+ n)) (code_rank_upper n)
  have b6 := rank_bound_ite (r := code_rank)
    (c := ".jx".data <:+ n ∨ ".cssx".data <:+ n) (code_rank_suspicious n)
  have b7 := rank_bound_ite (r := code_rank)
    (c := n = "index.html".data ∧ ¬ ("public".data <:+: d)) code_rank_misplaced
  have P2 := pairwise_rank_append (k := 0)
    (pairwise_ite_singleton (r := code_rank)) (pairwise_ite_singleton (r := code_rank))
    (fun x hx => by rw [b1 x hx]) (fun x hx => by rw [b2 x hx]; omega)
  have B2 : ∀ x ∈ (if n = "index.htm".data then [critical_msg] else []) ++
      (if ".htm".data <:+ n ∧ ¬ (".html".data <:+ n) then [incorrect_ext_msg n] else []),
      code_rank x ≤ 1 := by
    intro x hx
    rcases List.mem_append.mp hx with h | h
    · rw [b1 x h]; omega
    · rw [b2 x h]
  have P3 := pairwise_rank_append (k := 2) P2 (pairwise_ite_singleton (r := code_rank))
    (fun x hx => by have := B2 x hx; omega) (fun x hx => by rw [b3 x hx])
  have B3 : ∀ x ∈ ((if n = "index.htm".data then [critical_msg] else []) ++
      (if ".htm".data <:+ n ∧ ¬ (".html".data <:+ n) then [incorrect_ext_msg n] else [])) ++
      (if ∃ c ∈ n.filter (fun c => !(c == ' ' || c == '-' || c == '_')), bannedSpecial c
        then [special_msg n] else []),
      code_rank x ≤ 2 := by
    intro x hx
    rcases List.mem_append.mp hx with h | h
    · have := B2 x h; omega
    · rw [b3 x h]
  have P4 := pairwise_rank_append (k := 3) P3 (pairwise_ite_singleton (r := code_rank))
    (fun x hx => by have := B3 x hx; omega) (fun x hx => by rw [b4 x hx])
  have B4 : ∀ x ∈ (((if n = "index.htm".data then [critical_msg] else []) ++
      (if ".htm".data <:+ n ∧ ¬ (".html".data <:+ n) then [incorrect_ext_msg n] else [])) ++
      (if ∃ c ∈ n.filter (fun c => !(c == ' ' || c == '-' || c == '_')), bannedSpecial c
        then [special_msg n] else [])) ++
      (if ' ' ∈ n then [spaces_msg n] else []),
      code_rank x ≤ 3 := by
    intro x hx
    rcases List.mem_append.mp hx with h | h
    · have := B3 x h; omega
    · rw [b4 x h]
  have P5 := pairwise_rank_append (k := 4) P4 (pairwise_ite_singleton (r := code_rank))
    (fun x hx => by have := B4 x hx; omega) (fun x hx => by rw [b5 x hx])
  have B5 : ∀ x ∈ ((((if n = "index.htm".data then [critical_msg] else []) ++
      (if ".htm".data <:+ n ∧ ¬ (".html".data <:+ n) then [incorrect_ext_msg n] else [])) ++
      (if ∃ c ∈ n.filter (fun c => !(c == ' ' || c == '-' || c == '_')), bannedSpecial c
        then [special_msg n] else [])) ++
      (if ' ' ∈ n then [spaces_msg n] else [])) ++
      (if n ≠ pyLower n ∧
        ¬ (".md".data <:+ n ∨ ".txt".data <:+ n ∨ ".json".data <:+ n ∨
          ".gitignore".data <:+ n) then [upper_msg n] else []),
      code_rank x ≤ 4 := by
    intro x hx
    rcases List.mem_append.mp hx with h | h
    · have := B4 x h; omega
    · rw [b5 x h]
  have P6 := pairwise_rank_append (k := 5) P5 (pairwise_ite_singleton (r := code_rank))
    (fun x hx => by have := B5 x hx; omega) (fun x hx => by rw [b6 x hx])
  have B6 : ∀ x ∈ (((((if n = "index.htm".data then [critical_msg] else []) ++
      (if ".htm".data <:+ n ∧ ¬ (".html".data <:+ n) then [incorrect_ext_msg n] else [])) ++
      (if ∃ c ∈ n.filter (fun c => !(c == ' ' || c == '-' || c == '_')), bannedSpecial c
        then [special_msg n] else [])) ++
      (if ' ' ∈ n then [spaces_msg n] else [])) ++
      (if n ≠ pyLower n ∧
        ¬ (".md".data <:+ n ∨ ".txt".data <:+ n ∨ ".json".data <:+ n ∨
          ".gitignore".data <:+ n) then [upper_msg n] else [])) ++
      (if ".jx".data <:+ n ∨ ".cssx".data <:+ n then [suspicious_msg n] else []),
      code_rank x ≤ 5 := by
    intro x hx
    rcases List.mem_append.mp hx with h | h
    · have := B5 x h; omega
    · rw [b6 x h]
  exact pairwise_rank_append (k := 6) P6 (pairwise_ite_singleton (r := code_rank))
    (fun x hx => by have := B6 x hx; omega) (fun x hx => by rw [b7 x hx])

/-! ### Claim C6: the MISPLACED_INDEX rule -/

/-- C6 counterexample: the directory "./republic" is outside the publish
directory public/ (no path component equals "public"), yet the classifier
emits no MISPLACED_INDEX issue for an index.html located there, because the
source tests the substring `'public' in file_dir` and "republic" contains
"public".  This refutes the claimed "a file named index.html anywhere else
always is [flagged]". -/
theorem C6_counterexample :
    "public".data ∉ pySplit sepSlash "./republic".data ∧
    misplaced_msg ∉ detect_file_issues "./republic".data "index.html".data := by decide

/-- C6 (amended): detect_file_issues emits the MISPLACED_INDEX issue iff the
filename is exactly index.html and the string "public" does not occur as a
substring of the directory part of the path (not: iff the file lies outside
the public/ directory). -/
theorem C6_misplaced_iff_substring (d n : Str) :
    misplaced_msg ∈ detect_file_issues d n ↔
      (n = "index.html".data ∧ ¬ ("public".data <:+: d)) :=
  misplaced_mem_detect_iff d n

/-! ### Claim C7: rule order and no short-circuiting -/

/-- C7 counterexample: for the filename "a b.htm" the classifier returns the
BAD_EXTENSION issue before the SPACE issue, so the returned list is not
ordered by the spec's claimed rule order SPACE, SPECIAL_CHAR, UPPERCASE,
BAD_EXTENSION, MISPLACED_INDEX. -/
theorem C7_counterexample :
    ¬ List.Pairwise (fun a b => spec_rank a ≤ spec_rank b)
        (detect_file_issues ".".data "a b.htm".data) := by decide

/-- C7 (amended): detect_file_issues keeps one issue for every rule that
matches (each rule's issue is present iff its condition holds, with no
short-circuiting), and the returned list is ordered by the order in which
the code appends the rules: CRITICAL index.htm, then Incorrect extension,
Special characters, Spaces, Uppercase, Suspicious extension, and misplaced
index.html last. -/
theorem C7_rule_order_and_membership (d n : Str) :
    List.Pairwise (fun a b => code_rank a ≤ code_rank b) (detect_file_issues d n) ∧
    (critical_msg ∈ detect_file_issues d n ↔ n = "index.htm".data) ∧
    (incorrect_ext_msg n ∈ detect_file_issues d n ↔
      ".htm".data <:+ n ∧ ¬ (".html".data <:+ n)) ∧
    (special_msg n ∈ detect_file_issues d n ↔
      ∃ c ∈ n.filter (fun c => !(c == ' ' || c == '-' || c == '_')), bannedSpecial c) ∧
    (spaces_msg n ∈ detect_file_issues d n ↔ ' ' ∈ n) ∧
    (upper_msg n ∈ detect_file_issues d n ↔
      (n ≠ pyLower n ∧
        ¬ (".md".data <:+ n ∨ ".txt".data <:+ n ∨ ".json".data <:+ n ∨
          ".gitignore".data <:+ n))) ∧
    (suspicious_msg n ∈ detect_file_issues d n ↔
      (".jx".data <:+ n ∨ ".cssx".data <:+ n)) ∧
    (misplaced_msg ∈ detect_file_issues d n ↔
      (n = "index.html".data ∧ ¬ ("public".data <:+: d))) :=
  ⟨detect_pairwise_code_rank d n, critical_mem_detect_iff d n,
    incorrect_mem_detect_iff d n, special_mem_detect_iff d n,
    spaces_mem_detect_iff d n, upper_mem_detect_iff d n,
    suspicious_mem_detect_iff d n, misplaced_mem_detect_iff d n⟩

/-! ### Claim C8: the scan-only exit code -/

/-- C8: the scan-only command terminates with sys.exit of the number of
issues reported by analyze_project_structure, which is zero exactly when
no issues were found. -/
theorem C8_scan_exit_code (fs : FS) :
    check_project_exit fs = (analyze_project_structure fs).issues.length ∧
    (check_project_exit fs = 0 ↔ (analyze_project_structure fs).issues = []) := by
  refine ⟨rfl, ?_⟩
  unfold check_project_exit
  exact List.length_eq_zero

/-! ### Claim C9: the two scanners use different uppercase exemptions -/

/-- C9: for a filename starting with README the scan-only analyzer emits no
uppercase issue, while the healer classifier emits its UPPERCASE issue
exactly when the name differs from its lowercasing and its extension is not
in the allow-list; in particular the bare name "README" is flagged by
detect_file_issues but produces no issue at all in
analyze_project_structure's per-file checks. -/
theorem C9_uppercase_exemptions (fp n d m : Str) (hn : "README".data <+: n) :
    (∀ i ∈ analyze_file_issues fp n, ¬ ("Uppercase".data <+: i)) ∧
    (upper_msg m ∈ detect_file_issues d m ↔
      (m ≠ pyLower m ∧
        ¬ (".md".data <:+ m ∨ ".txt".data <:+ m ∨ ".json".data <:+ m ∨
          ".gitignore".data <:+ m))) ∧
    upper_msg "README".data ∈ detect_file_issues ".".data "README".data ∧
    analyze_file_issues "README".data "README".data = [] := by
  refine ⟨?_, upper_mem_detect_iff d m, ?_, by decide⟩
  · intro i hi
    unfold analyze_file_issues at hi
    rcases List.mem_append.mp hi with h | h
    · rcases List.mem_append.mp h with h2 | h2
      · rcases mem_ite_singleton.mp h2 with ⟨-, rfl⟩
        rw [List.isPrefix_append_of_length (by decide)]
        decide
      · rcases mem_ite_singleton.mp h2 with ⟨⟨-, hc⟩, rfl⟩
        exact absurd hn hc
    · rcases mem_ite_singleton.mp h with ⟨-, rfl⟩
      rw [List.isPrefix_append_of_length (by decide)]
      decide
  · rw [upper_mem_detect_iff]
    exact ⟨by decide, by decide⟩

/-- C9 witness at the concrete inputs README / README.md / a generic name. -/
theorem C9_uppercase_exemptions_witness :
    ("README".data <+: "README.md".data) ∧
    ((∀ i ∈ analyze_file_issues "README.md".data "README.md".data,
        ¬ ("Uppercase".data <+: i)) ∧
      (upper_msg "A".data ∈ detect_file_issues ".".data "A".data ↔
        ("A".data ≠ pyLower "A".data ∧
          ¬ (".md".data <:+ "A".data ∨ ".txt".data <:+ "A".data ∨
            ".json".data <:+ "A".data ∨ ".gitignore".data <:+ "A".data))) ∧
      upper_msg "README".data ∈ detect_file_issues ".".data "README".data ∧
      analyze_file_issues "README".data "README".data = []) :=
  ⟨by decide,
    C9_uppercase_exemptions "README.md".data "README.md".data ".".data "A".data (by decide)⟩

/-! ### Claim C3: the degraded-mode guarantee of analyze_with_gemini -/

/-- C3: whatever the advisory outcome is — a raised exception, a non-200
status, a 200 response with no candidate text, or a 200 response whose text
yields no parsable JSON object — analyze_with_gemini returns exactly the
deterministic create_automatic_fixes of the issue list and propagates no
failure (the function is total and never re-raises). -/
theorem C3_degraded_mode (extract : Str → Option (List FixAction)) (issues : List Str)
    (status : Nat) (cand : Option Str) (text : Str)
    (hstatus : status ≠ 200) (htext : extract text = none) :
    analyze_with_gemini extract .requestError issues = create_automatic_fixes issues ∧
    analyze_with_gemini extract (.response status cand) issues
      = create_automatic_fixes issues ∧
    analyze_with_gemini extract (.response 200 (some text)) issues
      = create_automatic_fixes issues ∧
    analyze_with_gemini extract (.response 200 none) issues
      = create_automatic_fixes issues := by
  refine ⟨rfl, ?_, ?_, ?_⟩
  · simp [analyze_with_gemini, hstatus]
  · simp [analyze_with_gemini, htext]
  · simp [analyze_with_gemini]

/-- C3 witness: an extractor that never parses, HTTP 500, and a junk body. -/
theorem C3_degraded_mode_witness :
    (500 ≠ 200) ∧
    ((fun _ : Str => (none : Option (List FixAction))) "no json here".data = none) ∧
    (analyze_with_gemini (fun _ => none) .requestError [] = create_automatic_fixes [] ∧
      analyze_with_gemini (fun _ => none) (.response 500 none) []
        = create_automatic_fixes [] ∧
      analyze_with_gemini (fun _ => none) (.response 200 (some "no json here".data)) []
        = create_automatic_fixes [] ∧
      analyze_with_gemini (fun _ => none) (.response 200 none) []
        = create_automatic_fixes []) :=
  ⟨by decide, rfl,
    C3_degraded_mode (fun _ => none) [] 500 none "no json here".data (by decide) rfl⟩

/-! ### Claim C10: CREATE actions with a trailing slash in the destination -/

/-- C10 counterexample: for the action create with destination "x/" on an
empty tree, the code creates a directory at the destination itself (because
os.path.dirname of a trailing-slash path only strips the slash), not only
the destination's parent directories: afterwards a directory exists at the
destination path ["x"], which did not exist before and whose parent is the
root.  The Created log entry is still appended and no file is written. -/
theorem C10_counterexample :
    apply_one_fix ⟨[], []⟩ ⟨"create".data, [], "x/".data, []⟩ =
      (⟨[], [["x".data]]⟩, [LogEntry.created "x/".data]) ∧
    isDirOf ⟨[], [["x".data]]⟩ ["x".data] ∧
    ¬ isDirOf ⟨[], []⟩ ["x".data] := by decide

theorem mem_neInits_self {p : FPath} (hp : p ≠ []) : p ∈ neInits p := by
  unfold neInits
  rw [List.mem_map]
  refine ⟨p.length - 1, ?_, ?_⟩
  · rw [List.mem_range]
    have : 0 < p.length := List.length_pos.mpr hp
    omega
  · have : 0 < p.length := List.length_pos.mpr hp
    have hlen : p.length - 1 + 1 = p.length := by omega
    rw [hlen, List.take_length]

/-- C10 (amended): for a CREATE action whose destination ends with a slash,
when the destination directory does not yet exist and no component of it is
blocked by a regular file, apply_fixes appends one Created entry, writes no
file (the file set is unchanged), and creates the destination directory
itself together with its ancestors (dirname of a trailing-slash path is the
path without the slash, not its parent). -/
theorem C10_trailing_slash_create (fs : FS) (fx : FixAction)
    (hact : fx.act = "create".data)
    (hslash : (parseRel (fx.dst.dropWhile (· = '/'))).2 = true)
    (hnex : ¬ strPathExists fs (parseRel (fx.dst.dropWhile (· = '/'))))
    (hmk : ∀ q ∈ neInits (parseRel (fx.dst.dropWhile (· = '/'))).1, q ∉ fs.files) :
    (apply_one_fix fs fx).1.files = fs.files ∧
    (apply_one_fix fs fx).2 = [LogEntry.created (fx.dst.dropWhile (· = '/'))] ∧
    isDirOf (apply_one_fix fs fx).1 (parseRel (fx.dst.dropWhile (· = '/'))).1 := by
  have hnr : ¬ (fx.act = "rename".data) := by rw [hact]; decide
  have hdir : dirnameOf (parseRel (fx.dst.dropWhile (· = '/')))
      = (parseRel (fx.dst.dropWhile (· = '/'))).1 := by
    unfold dirnameOf
    rw [if_pos hslash]
  have hmkcond : ¬ ∃ q ∈ neInits (parseRel (fx.dst.dropWhile (· = '/'))).1,
      q ∈ fs.files := by
    rintro ⟨q, hq, hqf⟩
    exact hmk q hq hqf
  have hmkeq : makedirs fs (parseRel (fx.dst.dropWhile (· = '/'))).1 =
      some ⟨fs.files, fs.dirs ++ (neInits
        (parseRel (fx.dst.dropWhile (· = '/'))).1).filter
        (fun q => !(decide (q ∈ fs.dirs)))⟩ := by
    unfold makedirs
    rw [if_neg hmkcond]
  have happ : apply_one_fix fs fx =
      (⟨fs.files, fs.dirs ++ (neInits
          (parseRel (fx.dst.dropWhile (· = '/'))).1).filter
          (fun q => !(decide (q ∈ fs.dirs)))⟩,
        [LogEntry.created (fx.dst.dropWhile (· = '/'))]) := by
    simp only [apply_one_fix]
    rw [if_neg hnr, if_pos hact, if_pos hnex, hdir, hmkeq]
    simp [hslash]
  rw [happ]
  refine ⟨rfl, rfl, ?_⟩
  by_cases hpt : (parseRel (fx.dst.dropWhile (· = '/'))).1 = []
  · exact Or.inl hpt
  · right; left
    by_cases hin : (parseRel (fx.dst.dropWhile (· = '/'))).1 ∈ fs.dirs
    · exact List.mem_append.mpr (Or.inl hin)
    · refine List.mem_append.mpr (Or.inr ?_)
      rw [List.mem_filter]
      exact ⟨mem_neInits_self hpt, by simp [hin]⟩

/-- C10 witness at a concrete empty tree and the action create "y/". -/
theorem C10_trailing_slash_create_witness :
    ((⟨"create".data, [], "y/".data, []⟩ : FixAction).act = "create".data) ∧
    ((parseRel (("y/".data : Str).dropWhile (· = '/'))).2 = true) ∧
    (¬ strPathExists ⟨[], []⟩ (parseRel (("y/".data : Str).dropWhile (· = '/')))) ∧
    (∀ q ∈ neInits (parseRel (("y/".data : Str).dropWhile (· = '/'))).1,
      q ∉ (⟨[], []⟩ : FS).files) ∧
    ((apply_one_fix ⟨[], []⟩ ⟨"create".data, [], "y/".data, []⟩).1.files
        = (⟨[], []⟩ : FS).files ∧
      (apply_one_fix ⟨[], []⟩ ⟨"create".data, [], "y/".data, []⟩).2
        = [LogEntry.created (("y/".data : Str).dropWhile (· = '/'))] ∧
      isDirOf (apply_one_fix ⟨[], []⟩ ⟨"create".data, [], "y/".data, []⟩).1
        (parseRel (("y/".data : Str).dropWhile (· = '/'))).1) :=
  ⟨rfl, by decide, by decide, by decide,
    C10_trailing_slash_create ⟨[], []⟩ ⟨"create".data, [], "y/".data, []⟩
      rfl (by decide) (by decide) (by decide)⟩

/-! ### Claim C4: partial-failure semantics of apply_fixes -/

theorem apply_one_fix_log_length (fs : FS) (fx : FixAction) :
    (apply_one_fix fs fx).2.length ≤ 1 := by
  simp only [apply_one_fix]
  split
  · split
    · split
      · simp
      · split <;> simp
    · simp
  · split
    · split
      · split
        · simp
        · split
          · simp
          · split <;> simp
      · simp
    · simp

theorem apply_one_fix_rename_skip (fs : FS) (fx : FixAction)
    (hact : fx.act = "rename".data)
    (h : ¬ (strPathExists fs (parseRel (fx.src.dropWhile (· = '/'))) ∧
        fx.src.dropWhile (· = '/') ≠ fx.dst.dropWhile (· = '/'))) :
    apply_one_fix fs fx = (fs, []) := by
  simp only [apply_one_fix]
  rw [if_pos hact, if_neg h]

theorem apply_one_fix_create_skip (fs : FS) (fx : FixAction)
    (hact : fx.act = "create".data)
    (h : strPathExists fs (parseRel (fx.dst.dropWhile (· = '/')))) :
    apply_one_fix fs fx = (fs, []) := by
  have hnr : ¬ fx.act = "rename".data := by rw [hact]; decide
  simp only [apply_one_fix]
  rw [if_neg hnr, if_pos hact, if_neg (not_not_intro h)]

/-- C4: apply_fixes processes the batch fix by fix: it is the fold of
apply_one_fix over the list starting from the critical-fix state, each
action contributes at most one log entry, the fold continues with the
remaining actions whatever one action's outcome was (exceptions are caught
inside the per-fix try), a RENAME is skipped (state unchanged, no entry)
unless the source exists and source differs from destination, and a CREATE
is skipped when the destination already exists. -/
theorem C4_apply_fixes_partial (fixes : List FixAction) (fs : FS) (fx : FixAction)
    (rest : List FixAction) (st : FS × List LogEntry) :
    (apply_fixes fixes fs =
      fixes.foldl apply_fix_step (apply_critical_fixes fs)) ∧
    ((fx :: rest).foldl apply_fix_step st
      = rest.foldl apply_fix_step
          ((apply_one_fix st.1 fx).1, st.2 ++ (apply_one_fix st.1 fx).2)) ∧
    (apply_one_fix st.1 fx).2.length ≤ 1 ∧
    (fx.act = "rename".data →
      ¬ (strPathExists st.1 (parseRel (fx.src.dropWhile (· = '/'))) ∧
          fx.src.dropWhile (· = '/') ≠ fx.dst.dropWhile (· = '/')) →
      apply_one_fix st.1 fx = (st.1, [])) ∧
    (fx.act = "create".data →
      strPathExists st.1 (parseRel (fx.dst.dropWhile (· = '/'))) →
      apply_one_fix st.1 fx = (st.1, [])) :=
  ⟨rfl, rfl, apply_one_fix_log_length st.1 fx,
    fun h1 h2 => apply_one_fix_rename_skip st.1 fx h1 h2,
    fun h1 h2 => apply_one_fix_create_skip st.1 fx h1 h2⟩

/-- C4 witness at a one-element batch on the empty tree. -/
theorem C4_apply_fixes_partial_witness :
    (apply_fixes [pub_fix] ⟨[], []⟩ =
      [pub_fix].foldl apply_fix_step (apply_critical_fixes ⟨[], []⟩)) ∧
    (([pub_fix].foldl apply_fix_step ((⟨[], []⟩ : FS), ([] : List LogEntry)))
      = [].foldl apply_fix_step
          ((apply_one_fix ⟨[], []⟩ pub_fix).1,
            [] ++ (apply_one_fix ⟨[], []⟩ pub_fix).2)) ∧
    (apply_one_fix ⟨[], []⟩ pub_fix).2.length ≤ 1 ∧
    (pub_fix.act = "rename".data →
      ¬ (strPathExists ⟨[], []⟩ (parseRel (pub_fix.src.dropWhile (· = '/'))) ∧
          pub_fix.src.dropWhile (· = '/') ≠ pub_fix.dst.dropWhile (· = '/')) →
      apply_one_fix ⟨[], []⟩ pub_fix = (⟨[], []⟩, [])) ∧
    (pub_fix.act = "create".data →
      strPathExists ⟨[], []⟩ (parseRel (pub_fix.dst.dropWhile (· = '/'))) →
      apply_one_fix ⟨[], []⟩ pub_fix = (⟨[], []⟩, [])) :=
  C4_apply_fixes_partial [pub_fix] ⟨[], []⟩ pub_fix [] (⟨[], []⟩, [])

/-! ### Utilities for the deterministic-fixer characterization -/

theorem not_infix_append_left {α : Type*} {s u v : List α} (hu : ¬ s <:+: u)
    (hv : ¬ s <:+: v) (hb : ∀ k, k < s.length → 0 < k → ¬ (s.take k <:+ u)) :
    ¬ s <:+: u ++ v :=
  not_infix_append hu hv (fun k hk h0 => Or.inl (hb k hk h0))

theorem singleton_suffix_iff {c : Char} {n : Str} : [c] <:+ n ↔ n.getLast? = some c := by
  constructor
  · rintro ⟨w, rfl⟩
    exact List.getLast?_concat w
  · intro h
    exact ⟨n.dropLast, List.dropLast_append_getLast? c h⟩

theorem suffix_getLast? {s n : Str} (hs : s <:+ n) (hne : s ≠ []) :
    n.getLast? = s.getLast? := by
  obtain ⟨w, rfl⟩ := hs
  exact List.getLast?_append_of_ne_nil w hne

theorem htm_last {n : Str} (h : ".htm".data <:+ n) : n.getLast? = some 'm' := by
  rw [suffix_getLast? h (by decide)]
  decide

theorem appendl_last (n : Str) : (n ++ "l".data).getLast? = some 'l' :=
  List.getLast?_concat n

theorem ne_of_getLast? {s t : Str} (h : s.getLast? ≠ t.getLast?) : s ≠ t :=
  fun he => h (he ▸ rfl)

theorem suffix_htm_not_html {n : Str} (h : ".htm".data <:+ n) :
    ¬ (".html".data <:+ n) :=
  fun h2 => absurd (List.suffix_of_suffix_length_le h h2 (by decide)) (by decide)

theorem appendl_not_htm {n : Str} : ¬ (".htm".data <:+ (n ++ "l".data)) := by
  intro h
  have h1 := htm_last h
  rw [appendl_last] at h1
  exact absurd h1 (by decide)

theorem appendl_cancel {n m : Str} (h : n ++ "l".data = m ++ "l".data) : n = m := by
  have := congrArg List.dropLast h
  simpa using this

theorem dropWhile_slash_eq {s : Str} (h : '/' ∉ s) : s.dropWhile (· = '/') = s := by
  cases s with
  | nil => rfl
  | cons c cs =>
    have hc : ¬ (c = '/') := fun he => h (he ▸ List.mem_cons_self c cs)
    simp [List.dropWhile_cons, hc]

theorem parseRel_single {s : Str} (hs : '/' ∉ s) (hne : s ≠ []) :
    parseRel s = ([s], false) := by
  unfold parseRel
  have h1 : pySplit sepSlash s = [s] :=
    pySplit_of_not_infix (by decide) (fun hc => hs (infix_singleton_iff_mem.mp hc))
  rw [h1]
  have h2 : s.getLast? ≠ some '/' := fun hc => hs (List.mem_of_mem_getLast? hc)
  have h3 : (s.getLast? == some '/') = false := beq_eq_false_iff_ne.mpr h2
  rw [h3]
  have h4 : s.isEmpty = false := by
    cases s with
    | nil => exact absurd rfl hne
    | cons c cs => rfl
  simp [List.filter_cons, h4]

theorem flatMap_nil_of_all {α β : Type} {l : List α} {f : α → List β}
    (h : ∀ x ∈ l, f x = []) : l.flatMap f = [] := by
  induction l with
  | nil => rfl
  | cons x xs ih =>
    simp only [List.flatMap_cons, h x (by simp), List.nil_append]
    exact ih (fun y hy => h y (by simp [hy]))

theorem flatMap_ite_singleton_nil {c : Prop} [Decidable c] {m : Str}
    {f : Str → List FixAction} (hm : f m = []) :
    (if c then [m] else []).flatMap f = [] := by
  split <;> simp [hm]

/-! ### The messages that carry no deterministic fix -/

theorem sb_not_special {n : Str} (hn : ¬ "should be".data <:+: n) :
    ¬ "should be".data <:+: special_msg n := by
  unfold special_msg
  exact not_infix_append_left (by decide) hn (by decide)

theorem sb_not_spaces {n : Str} (hn : ¬ "should be".data <:+: n) :
    ¬ "should be".data <:+: spaces_msg n := by
  unfold spaces_msg
  exact not_infix_append_left (by decide) hn (by decide)

theorem sb_not_upper {n : Str} (hn : ¬ "should be".data <:+: n) :
    ¬ "should be".data <:+: upper_msg n := by
  unfold upper_msg
  exact not_infix_append_left (by decide) hn (by decide)

theorem sb_not_suspicious {n : Str} (hn : ¬ "should be".data <:+: n) :
    ¬ "should be".data <:+: suspicious_msg n := by
  unfold suspicious_msg
  exact not_infix_append_left (by decide) hn (by decide)

/-- An issue that does not contain "should be" yields no deterministic fix:
both branches of create_automatic_fixes test for that substring. -/
theorem fix_for_issue_no_sb {issue : Str} (h : ¬ "should be".data <:+: issue) :
    fix_for_issue issue = [] := by
  unfold fix_for_issue
  rw [if_neg (fun hc => h hc.2), if_neg (fun hc => h hc.2)]

/-! ### The Incorrect-extension message and its deterministic fix -/

theorem incorrect_msg_assoc (n : Str) : incorrect_ext_msg n =
    "Incorrect extension: ".data ++ (n ++ (" should be ".data ++ (n ++ "l".data))) := by
  simp [incorrect_ext_msg, List.append_assoc]

theorem not_idx_infix_incorrect {n : Str} (hn : ¬ "index.htm".data <:+: n) :
    ¬ "index.htm".data <:+: incorrect_ext_msg n := by
  rw [incorrect_msg_assoc]
  refine not_infix_append_left (by decide) ?_ (by decide)
  refine not_infix_append hn ?_ ?_
  · refine not_infix_append_left (by decide) ?_ (by decide)
    exact not_infix_append_singleton hn (by decide) (by decide)
  · intro k hk h0
    right
    intro hpre
    have hl1 : ("index.htm".data).length = 9 := by decide
    have hl2 : (" should be ".data).length = 11 := by decide
    have hlen : (("index.htm".data).drop k).length ≤ (" should be ".data).length := by
      simp only [List.length_drop, hl1, hl2]
      omega
    rw [List.isPrefix_append_of_length hlen] at hpre
    have hall : ∀ j, j < 9 → 0 < j →
        ¬ (("index.htm".data).drop j <+: " should be ".data) := by decide
    rw [hl1] at hk
    exact hall k hk h0 hpre

theorem htm_infix_incorrect {n : Str} (hht : ".htm".data <:+ n) :
    ".htm".data <:+: incorrect_ext_msg n := by
  obtain ⟨w, hw⟩ := hht
  refine ⟨"Incorrect extension: ".data ++ w,
    " should be ".data ++ n ++ "l".data, ?_⟩
  rw [← hw]
  simp [incorrect_ext_msg, List.append_assoc]

theorem sb_infix_incorrect (n : Str) : "should be".data <:+: incorrect_ext_msg n := by
  have h1 : "should be".data <:+: " should be ".data := by decide
  have h2 : " should be ".data <:+: incorrect_ext_msg n := by
    refine ⟨"Incorrect extension: ".data ++ n, n ++ "l".data, ?_⟩
    simp [incorrect_ext_msg, List.append_assoc]
  exact h1.trans h2

theorem extraction_incorrect {n : Str} (hcolon : ¬ ": ".data <:+: n)
    (hsb : ¬ "should be".data <:+: n) (hlast : n.getLast? = some 'm') :
    (pySplit sepShouldBe
      ((pySplit sepColon (incorrect_ext_msg n)).getD 1 [])).headD [] = n := by
  have hshape1 : incorrect_ext_msg n =
      "Incorrect extension".data ++ sepColon ++
        (n ++ (" should be ".data ++ (n ++ "l".data))) := by
    have h : "Incorrect extension: ".data = "Incorrect extension".data ++ sepColon := by
      decide
    simp [incorrect_ext_msg, h, sepColon, List.append_assoc]
  have hrest : ¬ ": ".data <:+: (n ++ (" should be ".data ++ (n ++ "l".data))) := by
    refine not_infix_append hcolon ?_ ?_
    · refine not_infix_append_left (by decide) ?_ (by decide)
      exact not_infix_append_singleton hcolon (by decide) (by decide)
    · intro k hk h0
      left
      have hl1 : (": ".data).length = 2 := by decide
      have hk1 : k = 1 := by rw [hl1] at hk; omega
      subst hk1
      intro hsuf
      have htake : (": ".data).take 1 = [':'] := by decide
      rw [htake, singleton_suffix_iff, hlast] at hsuf
      exact absurd hsuf (by decide)
  have h1 : pySplit sepColon (incorrect_ext_msg n) =
      "Incorrect extension".data ::
        pySplit sepColon (n ++ (" should be ".data ++ (n ++ "l".data))) := by
    rw [hshape1]
    exact pySplit_append (by decide) (by decide)
  have h2 : pySplit sepColon (n ++ (" should be ".data ++ (n ++ "l".data))) =
      [n ++ (" should be ".data ++ (n ++ "l".data))] :=
    pySplit_of_not_infix (by decide) hrest
  rw [h1, h2]
  have hgd : (("Incorrect extension".data) ::
      [n ++ (" should be ".data ++ (n ++ "l".data))]).getD 1 []
      = n ++ (" should be ".data ++ (n ++ "l".data)) := rfl
  rw [hgd]
  have hshape2 : n ++ (" should be ".data ++ (n ++ "l".data)) =
      n ++ sepShouldBe ++ (" ".data ++ (n ++ "l".data)) := by
    have h : " should be ".data = sepShouldBe ++ " ".data := by decide
    simp [h, sepShouldBe, List.append_assoc]
  have hleft2 : ¬ sepShouldBe <:+: (n ++ sepShouldBe.dropLast) := by
    refine not_infix_append ?_ (by decide) ?_
    · intro hc
      exact hsb ((by decide : "should be".data <:+: sepShouldBe).trans hc)
    · intro k hk h0
      right
      have hall : ∀ j, j < sepShouldBe.length → 0 < j →
          ¬ (sepShouldBe.drop j <+: sepShouldBe.dropLast) := by decide
      exact hall k hk h0
  have h3 : pySplit sepShouldBe (n ++ sepShouldBe ++ (" ".data ++ (n ++ "l".data))) =
      n :: pySplit sepShouldBe (" ".data ++ (n ++ "l".data)) :=
    pySplit_append (by decide) hleft2
  rw [hshape2, h3]
  rfl

theorem fix_for_incorrect {n : Str} (hht : ".htm".data <:+ n)
    (hsb : ¬ "should be".data <:+: n) (hcolon : ¬ ": ".data <:+: n)
    (hnIH : ¬ "index.htm".data <:+: n) :
    fix_for_issue (incorrect_ext_msg n) =
      [⟨"rename".data, n, n ++ "l".data, "Fix HTML file extension".data⟩] := by
  simp only [fix_for_issue]
  rw [if_neg (fun hc => not_idx_infix_incorrect hnIH hc.1),
    if_pos ⟨htm_infix_incorrect hht, sb_infix_incorrect n⟩,
    extraction_incorrect hcolon hsb (htm_last hht)]

/-! ### Per-file deterministic fixes -/

def pubHtmPath : FPath := ["public".data, "index.htm".data]

def pubHtmlPath : FPath := ["public".data, "index.html".data]

def rootHtmPath : FPath := ["index.htm".data]

/-- The deterministic fixes contributed by the issues of one file. -/
def fixes_of_file (d n : Str) : List FixAction :=
  (detect_file_issues d n).flatMap fix_for_issue

/-- The deterministic fixes contributed by one file of the tree, including
the walker's skip rules. -/
def file_fixes (p : FPath) : List FixAction :=
  if skipDirStr (dirString p.dropLast) ∨ skipFileName (p.getLastD []) then []
  else fixes_of_file (dirString p.dropLast) (p.getLastD [])

theorem create_scan_eq (fs : FS) :
    create_automatic_fixes (scan_issues fs) = fs.files.flatMap file_fixes := by
  unfold create_automatic_fixes scan_issues
  rw [List.flatMap_assoc]
  refine congrArg _ (funext fun p => ?_)
  unfold file_fixes fixes_of_file
  split
  · simp
  · rfl

/-- A filename whose Incorrect-extension issue produces the intended
root-level rename: it ends in .htm, is not (and does not contain) index.htm,
and contains none of the separator substrings the fixer splits on. -/
structure Pending (n : Str) : Prop where
  htm : ".htm".data <:+ n
  ne_idx : n ≠ "index.htm".data
  sb : ¬ "should be".data <:+: n
  colon : ¬ ": ".data <:+: n
  nIH : ¬ "index.htm".data <:+: n
  no_slash : '/' ∉ n

theorem Pending.ne_nil {n : Str} (hP : Pending n) : n ≠ [] := by
  intro he
  have := hP.htm
  rw [he] at this
  have := this.length_le
  simp at this

theorem fixes_of_file_pending (d : Str) {n : Str} (hht : ".htm".data <:+ n)
    (hsb : ¬ "should be".data <:+: n) (hcolon : ¬ ": ".data <:+: n)
    (hnIH : ¬ "index.htm".data <:+: n) :
    fixes_of_file d n =
      [⟨"rename".data, n, n ++ "l".data, "Fix HTML file extension".data⟩] := by
  have hne_idx : n ≠ "index.htm".data := by
    intro he
    exact hnIH (he ▸ List.infix_rfl)
  have hmis_neg : ¬ (n = "index.html".data ∧ ¬ ("public".data <:+: d)) :=
    fun hc => absurd (hc.1 ▸ hht) (by decide)
  unfold fixes_of_file detect_file_issues
  rw [if_neg hne_idx, if_pos ⟨hht, suffix_htm_not_html hht⟩, if_neg hmis_neg]
  rw [List.flatMap_append, List.flatMap_append, List.flatMap_append,
    List.flatMap_append, List.flatMap_append, List.flatMap_append]
  rw [flatMap_ite_singleton_nil (fix_for_issue_no_sb (sb_not_special hsb)),
    flatMap_ite_singleton_nil (fix_for_issue_no_sb (sb_not_spaces hsb)),
    flatMap_ite_singleton_nil (fix_for_issue_no_sb (sb_not_upper hsb)),
    flatMap_ite_singleton_nil (fix_for_issue_no_sb (sb_not_suspicious hsb))]
  simp [fix_for_incorrect hht hsb hcolon hnIH]

theorem file_fixes_pending {n : Str} (hP : Pending n) :
    file_fixes [n] = [⟨"rename".data, n, n ++ "l".data, "Fix HTML file extension".data⟩] := by
  have hlast := htm_last hP.htm
  have hskip : ¬ (skipDirStr (dirString ([n] : FPath).dropLast) ∨
      skipFileName (([n] : FPath).getLastD [])) := by
    rintro (h | h)
    · have hd : ([n] : FPath).dropLast = [] := rfl
      rw [hd] at h
      exact absurd h (by decide)
    · rcases h with h | h
      · have h' : n = ".DS_Store".data := h
        rw [h'] at hlast
        exact absurd hlast (by decide)
      · have h' : n = "Thumbs.db".data := h
        rw [h'] at hlast
        exact absurd hlast (by decide)
  unfold file_fixes
  rw [if_neg hskip]
  exact fixes_of_file_pending _ hP.htm hP.sb hP.colon hP.nIH

theorem fixes_of_file_clean {d n : Str} (hsb : ¬ "should be".data <:+: n)
    (hnht : ¬ (".htm".data <:+ n))
    (hmis : n = "index.html".data → "public".data <:+: d) :
    fixes_of_file d n = [] := by
  have hcrit_neg : ¬ (n = "index.htm".data) := fun he => hnht (by rw [he]; decide)
  have hinc_neg : ¬ (".htm".data <:+ n ∧ ¬ (".html".data <:+ n)) := fun hc => hnht hc.1
  have hmis_neg : ¬ (n = "index.html".data ∧ ¬ ("public".data <:+: d)) :=
    fun hc => hc.2 (hmis hc.1)
  unfold fixes_of_file detect_file_issues
  rw [if_neg hcrit_neg, if_neg hinc_neg, if_neg hmis_neg]
  rw [List.flatMap_append, List.flatMap_append, List.flatMap_append,
    List.flatMap_append, List.flatMap_append, List.flatMap_append]
  rw [flatMap_ite_singleton_nil (fix_for_issue_no_sb (sb_not_special hsb)),
    flatMap_ite_singleton_nil (fix_for_issue_no_sb (sb_not_spaces hsb)),
    flatMap_ite_singleton_nil (fix_for_issue_no_sb (sb_not_upper hsb)),
    flatMap_ite_singleton_nil (fix_for_issue_no_sb (sb_not_suspicious hsb))]
  simp

theorem file_fixes_clean {p : FPath} (hsb : ¬ "should be".data <:+: p.getLastD [])
    (hnht : ¬ (".htm".data <:+ p.getLastD []))
    (hmis : p.getLastD [] = "index.html".data →
      "public".data <:+: dirString p.dropLast) :
    file_fixes p = [] := by
  unfold file_fixes
  split
  · rfl
  · exact fixes_of_file_clean hsb hnht hmis

theorem file_fixes_idx_root : file_fixes rootHtmPath = [pub_fix, pub_fix] := by decide

theorem file_fixes_idx_pub : file_fixes pubHtmPath = [pub_fix, pub_fix] := by decide

theorem file_fixes_pub_html : file_fixes pubHtmlPath = [] := by decide

theorem file_fixes_renamed {n : Str} (hP : Pending n) :
    file_fixes [n ++ "l".data] = [] := by
  refine file_fixes_clean ?_ ?_ ?_
  · show ¬ "should be".data <:+: n ++ "l".data
    exact not_infix_append_singleton hP.sb (by decide) (by decide)
  · exact appendl_not_htm
  · intro he
    have h' : n ++ "l".data = "index.htm".data ++ "l".data := he
    exact absurd (appendl_cancel h') hP.ne_idx

/-! ### Claim C5: .htm classification and the proposed rename -/

/-- C5 counterexample: for the filename "a: b.htm" (ending in .htm, so
flagged), create_automatic_fixes misparses the issue string at its ": "
and proposes the rename a -> al, whose target neither ends in .html nor
keeps the stem of the original file. -/
theorem C5_counterexample :
    create_automatic_fixes (detect_file_issues ".".data "a: b.htm".data) =
      [⟨"rename".data, "a".data, "al".data, "Fix HTML file extension".data⟩] ∧
    ¬ (".html".data <:+ "al".data) := by decide

/-- C5 (amended): for every filename ending in .htm that contains neither
": " nor "should be" as a substring and contains "index.htm" only if it is
exactly index.htm, the classifier emits the BAD_EXTENSION issue (with the
CRITICAL message exactly for index.htm), and every fix the deterministic
fixer proposes from this file's issues is a rename whose target ends in
.html and keeps the stem (the target is stem.html, at the root for an
ordinary file and at public/ for index.htm).  Without those side
conditions the extraction is misparsed (see the counterexample). -/
theorem C5_htm_fix_stem (d n : Str) (hht : ".htm".data <:+ n)
    (hsb : ¬ "should be".data <:+: n) (hcolon : ¬ ": ".data <:+: n)
    (hidx : "index.htm".data <:+: n → n = "index.htm".data) :
    incorrect_ext_msg n ∈ detect_file_issues d n ∧
    (critical_msg ∈ detect_file_issues d n ↔ n = "index.htm".data) ∧
    ∀ fx ∈ fixes_of_file d n,
      fx.act = "rename".data ∧ ".html".data <:+ fx.dst ∧
      ∃ stem : Str, n = stem ++ ".htm".data ∧
        (fx.dst = stem ++ ".html".data ∨
          fx.dst = "public/".data ++ stem ++ ".html".data) := by
  refine ⟨(incorrect_mem_detect_iff d n).mpr ⟨hht, suffix_htm_not_html hht⟩,
    critical_mem_detect_iff d n, ?_⟩
  by_cases hne : n = "index.htm".data
  · subst hne
    intro fx hfx
    have hform : fixes_of_file d "index.htm".data = [pub_fix, pub_fix] := rfl
    rw [hform] at hfx
    have hfx2 : fx = pub_fix := by
      rcases List.mem_cons.mp hfx with h | h
      · exact h
      · simpa using h
    subst hfx2
    exact ⟨rfl, by decide, "index".data, by decide, Or.inr (by decide)⟩
  · have hnIH : ¬ "index.htm".data <:+: n := fun hinf => hne (hidx hinf)
    intro fx hfx
    rw [fixes_of_file_pending d hht hsb hcolon hnIH] at hfx
    have hfx2 : fx = ⟨"rename".data, n, n ++ "l".data,
        "Fix HTML file extension".data⟩ := by simpa using hfx
    subst hfx2
    obtain ⟨w, hw⟩ := hht
    refine ⟨rfl, ?_, w, hw.symm, Or.inl ?_⟩
    · show ".html".data <:+ n ++ "l".data
      refine ⟨w, ?_⟩
      rw [← hw, List.append_assoc]
      rfl
    · show n ++ "l".data = w ++ ".html".data
      rw [← hw, List.append_assoc]
      rfl

/-- C5 witness at the ordinary filename foo.htm. -/
theorem C5_htm_fix_stem_witness :
    (".htm".data <:+ "foo.htm".data) ∧
    (¬ "should be".data <:+: "foo.htm".data) ∧
    (¬ ": ".data <:+: "foo.htm".data) ∧
    ("index.htm".data <:+: "foo.htm".data → "foo.htm".data = "index.htm".data) ∧
    (incorrect_ext_msg "foo.htm".data ∈
        detect_file_issues ".".data "foo.htm".data ∧
      (critical_msg ∈ detect_file_issues ".".data "foo.htm".data ↔
        "foo.htm".data = "index.htm".data) ∧
      ∀ fx ∈ fixes_of_file ".".data "foo.htm".data,
        fx.act = "rename".data ∧ ".html".data <:+ fx.dst ∧
        ∃ stem : Str, "foo.htm".data = stem ++ ".htm".data ∧
          (fx.dst = stem ++ ".html".data ∨
            fx.dst = "public/".data ++ stem ++ ".html".data)) :=
  ⟨by decide, by decide, by decide, by decide,
    C5_htm_fix_stem ".".data "foo.htm".data (by decide) (by decide) (by decide)
      (by decide)⟩

/-! ### Claim C2: the pipeline never fabricates public/index.html -/

/-- A well-formed project tree: every file path is nonempty and its
components, being path components, contain no slash. -/
def WellFormedFS (fs : FS) : Prop :=
  ∀ p ∈ fs.files, p ≠ [] ∧ ∀ c ∈ p, '/' ∉ c

instance (fs : FS) : Decidable (WellFormedFS fs) := by
  unfold WellFormedFS
  infer_instance

theorem getLastD_mem {p : FPath} (hp : p ≠ []) : p.getLastD [] ∈ p := by
  induction p with
  | nil => exact absurd rfl hp
  | cons c cs ih =>
    cases cs with
    | nil => simp [List.getLastD]
    | cons d ds =>
      have hm := ih (by simp)
      have he : (c :: d :: ds).getLastD [] = (d :: ds).getLastD [] := by
        simp [List.getLastD]
      rw [he]
      exact List.mem_cons_of_mem c hm

/-- Every issue detect_file_issues emits is one of the seven messages. -/
theorem mem_detect_cases {d n issue : Str} (h : issue ∈ detect_file_issues d n) :
    issue = critical_msg ∨ issue = incorrect_ext_msg n ∨ issue = special_msg n ∨
      issue = spaces_msg n ∨ issue = upper_msg n ∨ issue = suspicious_msg n ∨
      issue = misplaced_msg := by
  unfold detect_file_issues at h
  simp only [List.mem_append] at h
  rcases h with ((((((h | h) | h) | h) | h) | h) | h) <;>
    (rw [mem_ite_singleton] at h; tauto)

/-- A slash cannot occur in an issue message built from a slash-free
filename (the misplaced message aside, which is handled separately). -/
theorem slash_not_mem_msgs {n issue : Str} (hn : '/' ∉ n)
    (h : issue = critical_msg ∨ issue = incorrect_ext_msg n ∨ issue = special_msg n ∨
      issue = spaces_msg n ∨ issue = upper_msg n ∨ issue = suspicious_msg n) :
    '/' ∉ issue := by
  rcases h with rfl | rfl | rfl | rfl | rfl | rfl
  · decide
  · rw [incorrect_msg_assoc]
    simp only [List.mem_append]
    rintro (h | h | h | h | h)
    · exact absurd h (by decide)
    · exact hn h
    · exact absurd h (by decide)
    · exact hn h
    · exact absurd h (by decide)
  · simp only [special_msg, List.mem_append]
    rintro (h | h)
    · exact absurd h (by decide)
    · exact hn h
  · simp only [spaces_msg, List.mem_append]
    rintro (h | h)
    · exact absurd h (by decide)
    · exact hn h
  · simp only [upper_msg, List.mem_append]
    rintro (h | h)
    · exact absurd h (by decide)
    · exact hn h
  · simp only [suspicious_msg, List.mem_append]
    rintro (h | h)
    · exact absurd h (by decide)
    · exact hn h

/-- On a well-formed tree every scanned issue is either the misplaced
message or slash-free. -/
theorem scan_issue_slash {fs : FS} (hwf : WellFormedFS fs) :
    ∀ issue ∈ scan_issues fs, issue = misplaced_msg ∨ '/' ∉ issue := by
  intro issue hiss
  unfold scan_issues at hiss
  rw [List.mem_flatMap] at hiss
  obtain ⟨p, hp, hmem⟩ := hiss
  split at hmem
  · exact absurd hmem (List.not_mem_nil issue)
  · obtain ⟨hpne, hcomp⟩ := hwf p hp
    have hn : '/' ∉ p.getLastD [] := hcomp _ (getLastD_mem hpne)
    rcases mem_detect_cases hmem with h | h | h | h | h | h | h
    · exact Or.inr (slash_not_mem_msgs hn (Or.inl h))
    · exact Or.inr (slash_not_mem_msgs hn (Or.inr (Or.inl h)))
    · exact Or.inr (slash_not_mem_msgs hn (Or.inr (Or.inr (Or.inl h))))
    · exact Or.inr (slash_not_mem_msgs hn (Or.inr (Or.inr (Or.inr (Or.inl h)))))
    · exact Or.inr (slash_not_mem_msgs hn (Or.inr (Or.inr (Or.inr (Or.inr (Or.inl h))))))
    · exact Or.inr (slash_not_mem_msgs hn (Or.inr (Or.inr (Or.inr (Or.inr (Or.inr h))))))
    · exact Or.inl h

/-- The only shapes a deterministic fix can take: the hard-coded pub_fix,
or a rename of a slash-free extracted string m to m ++ "l". -/
def DetShape (fx : FixAction) : Prop :=
  fx = pub_fix ∨ ∃ m : Str, '/' ∉ m ∧
    fx = ⟨"rename".data, m, m ++ "l".data, "Fix HTML file extension".data⟩

theorem getD_pySplit_infix_self (sep s : Str) (i : Nat) :
    (pySplit sep s).getD i [] <:+: s ∨ (pySplit sep s).getD i [] = [] := by
  by_cases h : i < (pySplit sep s).length
  · left
    rw [List.getD_eq_getElem _ _ h]
    exact infix_of_mem_pySplit (List.getElem_mem h)
  · right
    exact List.getD_eq_default _ _ (le_of_not_lt h)

theorem headD_pySplit_infix_self (sep s : Str) : (pySplit sep s).headD [] <:+: s := by
  cases h : pySplit sep s with
  | nil => exact absurd h pySplit_ne_nil
  | cons a t =>
    have ha : a ∈ pySplit sep s := by
      rw [h]
      exact List.mem_cons_self a t
    exact infix_of_mem_pySplit ha

/-- On a well-formed tree every deterministic fix has one of the two
shapes. -/
theorem det_fix_shape {fs : FS} (hwf : WellFormedFS fs) :
    ∀ fx ∈ create_automatic_fixes (scan_issues fs), DetShape fx := by
  intro fx hfx
  unfold create_automatic_fixes at hfx
  rw [List.mem_flatMap] at hfx
  obtain ⟨issue, hiss, hfx⟩ := hfx
  simp only [fix_for_issue] at hfx
  by_cases h1 : "index.htm".data <:+: issue ∧ "should be".data <:+: issue
  · rw [if_pos h1] at hfx
    exact Or.inl (List.mem_singleton.mp hfx)
  · rw [if_neg h1] at hfx
    by_cases h2 : ".htm".data <:+: issue ∧ "should be".data <:+: issue
    · rw [if_pos h2] at hfx
      simp only [List.mem_singleton] at hfx
      have hslash : '/' ∉ issue := by
        rcases scan_issue_slash hwf issue hiss with h | h
        · refine absurd ?_ h1
          rw [h]
          exact ⟨by decide, by decide⟩
        · exact h
      refine Or.inr ⟨(pySplit sepShouldBe ((pySplit sepColon issue).getD 1 [])).headD [],
        ?_, hfx⟩
      rcases getD_pySplit_infix_self sepColon issue 1 with hp | hp
      · have hmi := (headD_pySplit_infix_self sepShouldBe _).trans hp
        exact fun hc => hslash (hmi.sublist.subset hc)
      · rw [hp]
        decide
    · rw [if_neg h2] at hfx
      exact absurd hfx (List.not_mem_nil fx)

/-- The invariant the healing run preserves: none of the three index paths
is a regular file, and no file path is empty. -/
def NoIndexTargets (fs : FS) : Prop :=
  pubHtmPath ∉ fs.files ∧ pubHtmlPath ∉ fs.files ∧ rootHtmPath ∉ fs.files ∧
    ∀ p ∈ fs.files, p ≠ []

theorem makedirs_files {fs fs' : FS} {p : FPath} (h : makedirs fs p = some fs') :
    fs'.files = fs.files := by
  unfold makedirs at h
  split at h
  · exact absurd h (by simp)
  · have he := Option.some.inj h
    rw [← he]

theorem makedirs_no_index {fs fs' : FS} {p : FPath} (h : makedirs fs p = some fs')
    (hI : NoIndexTargets fs) : NoIndexTargets fs' := by
  unfold NoIndexTargets
  rw [makedirs_files h]
  exact hI

/-- A path of three or more components is none of the index paths. -/
theorem long_ne_index {q : FPath} (hq : 3 ≤ q.length) :
    q ≠ pubHtmPath ∧ q ≠ pubHtmlPath ∧ q ≠ rootHtmPath ∧ q ≠ ([] : FPath) := by
  refine ⟨fun he => ?_, fun he => ?_, fun he => ?_, fun he => ?_⟩ <;>
    (rw [he] at hq; exact absurd hq (by decide))

/-- A path whose head is neither "public" nor "index.htm" is none of the
index paths. -/
theorem cons_ne_index {c : Str} (hc1 : c ≠ "public".data) (hc2 : c ≠ "index.htm".data)
    {rest : FPath} :
    c :: rest ≠ pubHtmPath ∧ c :: rest ≠ pubHtmlPath ∧ c :: rest ≠ rootHtmPath ∧
      c :: rest ≠ ([] : FPath) := by
  refine ⟨?_, ?_, ?_, ?_⟩
  · intro he
    injection he with h1 h2
    exact hc1 h1
  · intro he
    injection he with h1 h2
    exact hc1 h1
  · intro he
    injection he with h1 h2
    exact hc2 h1
  · exact List.cons_ne_nil c rest

/-- os.rename preserves the invariant when a file-overwrite cannot land on
an index path and no remapped path can become one. -/
theorem osRename_no_index {fs fs' : FS} {src dst : FPath} (hI : NoIndexTargets fs)
    (hfile : src ∈ fs.files →
      dst ≠ pubHtmPath ∧ dst ≠ pubHtmlPath ∧ dst ≠ rootHtmPath ∧ dst ≠ ([] : FPath))
    (hext : ∀ rest : FPath, rest ≠ [] →
      dst ++ rest ≠ pubHtmPath ∧ dst ++ rest ≠ pubHtmlPath ∧
      dst ++ rest ≠ rootHtmPath ∧ dst ++ rest ≠ ([] : FPath))
    (h : osRename fs src dst = some fs') : NoIndexTargets fs' := by
  unfold osRename at h
  split at h
  next hsrc =>
    split at h
    · exact absurd h (by simp)
    · have he := Option.some.inj h
      obtain ⟨hd1, hd2, hd3, hd4⟩ := hfile hsrc
      rw [← he]
      refine ⟨?_, ?_, ?_, ?_⟩
      · intro hc
        rcases List.mem_cons.mp hc with hx | hx
        · exact hd1 hx.symm
        · exact hI.1 (List.mem_of_mem_filter hx)
      · intro hc
        rcases List.mem_cons.mp hc with hx | hx
        · exact hd2 hx.symm
        · exact hI.2.1 (List.mem_of_mem_filter hx)
      · intro hc
        rcases List.mem_cons.mp hc with hx | hx
        · exact hd3 hx.symm
        · exact hI.2.2.1 (List.mem_of_mem_filter hx)
      · intro p hp
        rcases List.mem_cons.mp hp with hx | hx
        · rw [hx]
          exact fun hpe => hd4 hpe
        · exact hI.2.2.2 p (List.mem_of_mem_filter hx)
  next hsrc =>
    split at h
    next hdir =>
      split at h
      · exact absurd h (by simp)
      · have he := Option.some.inj h
        rw [← he]
        have key : ∀ p ∈ fs.files.map (remapUnder src dst),
            p ≠ pubHtmPath ∧ p ≠ pubHtmlPath ∧ p ≠ rootHtmPath ∧ p ≠ ([] : FPath) := by
          intro p hp
          rw [List.mem_map] at hp
          obtain ⟨f, hf, hfe⟩ := hp
          rw [← hfe]
          unfold remapUnder
          split
          next hpre =>
            have hne : f ≠ src := fun hfs => hsrc (hfs ▸ hf)
            have hlt : src.length < f.length := by
              rcases lt_or_eq_of_le hpre.length_le with hx | hx
              · exact hx
              · exact absurd (hpre.eq_of_length hx).symm hne
            have hrest : f.drop src.length ≠ [] := by
              intro hx
              have hlen := congrArg List.length hx
              simp only [List.length_drop, List.length_nil] at hlen
              omega
            exact hext _ hrest
          next =>
            exact ⟨fun hx => hI.1 (hx ▸ hf), fun hx => hI.2.1 (hx ▸ hf),
              fun hx => hI.2.2.1 (hx ▸ hf), fun hx => hI.2.2.2 f hf hx⟩
        exact ⟨fun hc => (key _ hc).1 rfl, fun hc => (key _ hc).2.1 rfl,
          fun hc => (key _ hc).2.2.1 rfl, fun p hp => (key p hp).2.2.2⟩
    next =>
      exact absurd h (by simp)

/-- Either hard-coded critical move can only produce paths at or under
public/index.html that are not themselves index file paths. -/
theorem shutil_move_no_index {fs fs' : FS} {src : FPath}
    (hI : NoIndexTargets fs) (hsrc : src = pubHtmPath ∨ src = rootHtmPath)
    (h : shutil_move fs src pubHtmlPath = some fs') : NoIndexTargets fs' := by
  unfold shutil_move at h
  refine osRename_no_index hI ?_ ?_ h
  · intro hmem
    exfalso
    rcases hsrc with rfl | rfl
    · exact hI.1 hmem
    · exact hI.2.2.1 hmem
  · intro rest hrest
    apply long_ne_index
    have h1 : 1 ≤ rest.length := List.length_pos.mpr hrest
    have h2 : 2 ≤ (if isDirOf fs pubHtmlPath then pubHtmlPath ++ basenameOf src
        else pubHtmlPath).length := by
      split
      · have h0 : pubHtmlPath.length = 2 := by decide
        simp only [List.length_append]
        omega
      · decide
    simp only [List.length_append]
    omega

theorem critical_step_no_index {st : FS × List LogEntry} {ft : Str × Str}
    (hft : ft ∈ criticalFixList) (hI : NoIndexTargets st.1) :
    NoIndexTargets (critical_step st ft).1 := by
  have hft2 : ft = ("public/index.htm".data, "public/index.html".data) ∨
      ft = ("index.htm".data, "public/index.html".data) := by
    simpa [criticalFixList] using hft
  have hgen : ∀ hsrc : (parseRel ft.1).1 = pubHtmPath ∨ (parseRel ft.1).1 = rootHtmPath,
      (parseRel ft.2).1 = pubHtmlPath → NoIndexTargets (critical_step st ft).1 := by
    intro hsrc htc
    simp only [critical_step]
    split
    · split
      next => exact hI
      next fs1 hmk =>
        split
        next => exact makedirs_no_index hmk hI
        next fs2 hmv =>
          refine shutil_move_no_index (makedirs_no_index hmk hI) hsrc ?_
          rw [← htc]
          exact hmv
    · exact hI
  rcases hft2 with rfl | rfl
  · exact hgen (Or.inl (by decide)) (by decide)
  · exact hgen (Or.inr (by decide)) (by decide)

/-- The rename branch of apply_one_fix preserves the invariant under the
same two side conditions as osRename. -/
theorem apply_rename_no_index {fs : FS} {src dst reason : Str} (hI : NoIndexTargets fs)
    (hfile : (parseRel (src.dropWhile (· = '/'))).1 ∈ fs.files →
      (parseRel (dst.dropWhile (· = '/'))).1 ≠ pubHtmPath ∧
      (parseRel (dst.dropWhile (· = '/'))).1 ≠ pubHtmlPath ∧
      (parseRel (dst.dropWhile (· = '/'))).1 ≠ rootHtmPath ∧
      (parseRel (dst.dropWhile (· = '/'))).1 ≠ ([] : FPath))
    (hext : ∀ rest : FPath, rest ≠ [] →
      (parseRel (dst.dropWhile (· = '/'))).1 ++ rest ≠ pubHtmPath ∧
      (parseRel (dst.dropWhile (· = '/'))).1 ++ rest ≠ pubHtmlPath ∧
      (parseRel (dst.dropWhile (· = '/'))).1 ++ rest ≠ rootHtmPath ∧
      (parseRel (dst.dropWhile (· = '/'))).1 ++ rest ≠ ([] : FPath)) :
    NoIndexTargets (apply_one_fix fs ⟨"rename".data, src, dst, reason⟩).1 := by
  simp only [apply_one_fix, if_true]
  split
  · split
    next => exact hI
    next fs1 hmk =>
      split
      next => exact makedirs_no_index hmk hI
      next fs2 hmv =>
        refine osRename_no_index (makedirs_no_index hmk hI) ?_ hext hmv
        intro hmem
        rw [makedirs_files hmk] at hmem
        exact hfile hmem
  · exact hI

/-- Any fix of the deterministic shape preserves the invariant. -/
theorem apply_one_fix_no_index {fs : FS} {fx : FixAction} (hshape : DetShape fx)
    (hI : NoIndexTargets fs) : NoIndexTargets (apply_one_fix fs fx).1 := by
  rcases hshape with rfl | ⟨m, hm, rfl⟩
  · rw [show pub_fix = (⟨"rename".data, "public/index.htm".data,
      "public/index.html".data,
      "Netlify requires .html extension for main file".data⟩ : FixAction) from rfl]
    refine apply_rename_no_index hI ?_ ?_
    · intro hmem
      have hceq : (parseRel ("public/index.htm".data.dropWhile (· = '/'))).1 =
          pubHtmPath := by decide
      rw [hceq] at hmem
      exact absurd hmem hI.1
    · intro rest hrest
      have hdeq : (parseRel ("public/index.html".data.dropWhile (· = '/'))).1 =
          pubHtmlPath := by decide
      rw [hdeq]
      apply long_ne_index
      have h1 : 1 ≤ rest.length := List.length_pos.mpr hrest
      have h0 : pubHtmlPath.length = 2 := by decide
      simp only [List.length_append]
      omega
  · by_cases hm0 : m = []
    · subst hm0
      refine apply_rename_no_index hI ?_ ?_
      · intro hmem
        have hceq : (parseRel (([] : Str).dropWhile (· = '/'))).1 = ([] : FPath) := by decide
        rw [hceq] at hmem
        exact absurd rfl (hI.2.2.2 [] hmem)
      · intro rest hrest
        have hdeq : (parseRel ((([] : Str) ++ "l".data).dropWhile (· = '/'))).1 =
            ["l".data] := by decide
        rw [hdeq, List.singleton_append]
        exact cons_ne_index (by decide) (by decide)
    · have hml : '/' ∉ m ++ "l".data := by
        intro hc
        rcases List.mem_append.mp hc with h | h
        · exact hm h
        · exact absurd h (by decide)
      have hmlne : m ++ "l".data ≠ [] := by simp
      have hdeq : (parseRel ((m ++ "l".data).dropWhile (· = '/'))).1 = [m ++ "l".data] := by
        rw [dropWhile_slash_eq hml, parseRel_single hml hmlne]
      refine apply_rename_no_index hI ?_ ?_
      · intro hmem
        rw [hdeq]
        refine ⟨?_, ?_, ?_, ?_⟩
        · exact fun he => absurd (congrArg List.length he) (by simp [pubHtmPath])
        · exact fun he => absurd (congrArg List.length he) (by simp [pubHtmlPath])
        · intro he
          injection he with h1 h2
          have hlast := appendl_last m
          rw [h1] at hlast
          exact absurd hlast (by decide)
        · exact fun he => List.cons_ne_nil _ _ he
      · intro rest hrest
        rw [hdeq, List.singleton_append]
        refine cons_ne_index ?_ ?_
        · intro he
          have hlast := appendl_last m
          rw [he] at hlast
          exact absurd hlast (by decide)
        · intro he
          have hlast := appendl_last m
          rw [he] at hlast
          exact absurd hlast (by decide)

/-- A property of the filesystem component is preserved by a fold when each
step preserves it. -/
theorem foldl_preserve {τ : Type} {P : FS → Prop}
    (f : FS × List LogEntry → τ → FS × List LogEntry) :
    ∀ (l : List τ) (st : FS × List LogEntry),
      (∀ s t, t ∈ l → P s.1 → P (f s t).1) → P st.1 → P (l.foldl f st).1 := by
  intro l
  induction l with
  | nil => exact fun st _ h => h
  | cons t ts ih =>
    intro st hstep h
    simp only [List.foldl_cons]
    exact ih (f st t) (fun s u hu hp => hstep s u (List.mem_cons_of_mem t hu) hp)
      (hstep st t (List.mem_cons_self t ts) h)

/-- C2 counterexample: a tree with an issue (a space in a filename) and
none of the index files; run_auto_heal runs its healing pass yet afterwards
public/index.html still does not exist — no placeholder is ever created
(the code has no file-creation step at all in the deterministic pipeline). -/
theorem C2_counterexample :
    pubHtmlPath ∉ (FS.mk [["My File.txt".data]] []).files ∧
    pubHtmPath ∉ (FS.mk [["My File.txt".data]] []).files ∧
    rootHtmPath ∉ (FS.mk [["My File.txt".data]] []).files ∧
    scan_issues ⟨[["My File.txt".data]], []⟩ ≠ [] ∧
    pubHtmlPath ∉ (run_auto_heal ⟨[["My File.txt".data]], []⟩).1.files := by decide

/-- C2 (amended): on a well-formed tree containing neither public/index.html
nor public/index.htm nor a root-level index.htm, after run_auto_heal the
file public/index.html still does not exist: the pipeline never creates a
placeholder. -/
theorem C2_no_placeholder (fs : FS) (hwf : WellFormedFS fs)
    (h1 : pubHtmlPath ∉ fs.files) (h2 : pubHtmPath ∉ fs.files)
    (h3 : rootHtmPath ∉ fs.files) :
    pubHtmlPath ∉ (run_auto_heal fs).1.files := by
  have hInit : NoIndexTargets fs := ⟨h2, h1, h3, fun p hp => (hwf p hp).1⟩
  simp only [run_auto_heal]
  split
  · exact h1
  · have hcrit : NoIndexTargets (apply_critical_fixes fs).1 := by
      unfold apply_critical_fixes
      exact foldl_preserve critical_step criticalFixList (fs, [])
        (fun s t ht hp => critical_step_no_index ht hp) hInit
    have hall := det_fix_shape hwf
    have hfin : NoIndexTargets
        (apply_fixes (create_automatic_fixes (scan_issues fs)) fs).1 := by
      unfold apply_fixes
      exact foldl_preserve apply_fix_step (create_automatic_fixes (scan_issues fs))
        (apply_critical_fixes fs)
        (fun s t ht hp => apply_one_fix_no_index (hall t ht) hp) hcrit
    exact hfin.2.1

theorem C2_no_placeholder_witness :
    WellFormedFS ⟨[["foo.htm".data]], []⟩ ∧
    pubHtmlPath ∉ (FS.mk [["foo.htm".data]] []).files ∧
    pubHtmPath ∉ (FS.mk [["foo.htm".data]] []).files ∧
    rootHtmPath ∉ (FS.mk [["foo.htm".data]] []).files ∧
    pubHtmlPath ∉ (run_auto_heal ⟨[["foo.htm".data]], []⟩).1.files :=
  ⟨by decide, by decide, by decide, by decide,
    C2_no_placeholder ⟨[["foo.htm".data]], []⟩ (by decide) (by decide) (by decide)
      (by decide)⟩

/-! ### Claim C1: idempotence of the deterministic pipeline -/

/-- The fix list a second deterministic round would propose: scan the tree
left by run_auto_heal and feed the issues to create_automatic_fixes. -/
def second_fixes (fs : FS) : List FixAction :=
  create_automatic_fixes (scan_issues (run_auto_heal fs).1)

/-- The rename create_automatic_fixes proposes for an Incorrect-extension
issue whose parsed original is n. -/
def ren (n : Str) : FixAction :=
  ⟨"rename".data, n, n ++ "l".data, "Fix HTML file extension".data⟩

theorem ren_ne_pub (n : Str) : ren n ≠ pub_fix := by
  intro he
  have h2 : "Fix HTML file extension".data =
      "Netlify requires .html extension for main file".data :=
    congrArg FixAction.reason he
  exact absurd h2 (by decide)

theorem ren_inj {n m : Str} (h : ren n = ren m) : n = m :=
  congrArg FixAction.src h

theorem singleton_prefix_singleton {α : Type} {a b : α} (h : [a] <+: [b]) : a = b := by
  have he : [a] = [b] := List.IsPrefix.eq_of_length h (by simp)
  simpa using he

theorem singleton_prefix_cons {α : Type} {a : α} {q : List α} (h : [a] <+: q) :
    ∃ t, q = a :: t := by
  obtain ⟨t, ht⟩ := h
  exact ⟨t, ht.symm⟩

theorem not_prefix_of_length_gt {α : Type} {p q : List α} (h : q.length < p.length) :
    ¬ p <+: q :=
  fun hc => absurd hc.length_le (by omega)

/-- A tame project tree: the well-behaved fragment on which the
deterministic pipeline is idempotent. Beyond well-formedness it rules out
the trees on which the code is provably not idempotent: filenames carrying
the fixer's separator substrings, index.htm-named components outside the
two hard-coded locations, an index.html outside a public directory (which
re-triggers the misplaced issue forever), a regular file named public, and
files sitting below a rename target (which make the rename fail). -/
structure TameFS (fs : FS) : Prop where
  nodirs : fs.dirs = []
  wf : WellFormedFS fs
  prefix_free : ∀ p ∈ fs.files, ∀ q ∈ fs.files, p <+: q → p = q
  no_public_file : ["public".data] ∉ fs.files
  no_sb : ∀ p ∈ fs.files, ∀ c ∈ p,
      ¬ "should be".data <:+: c ∧ ¬ ": ".data <:+: c
  idx_only : ∀ p ∈ fs.files, ∀ c ∈ p, "index.htm".data <:+: c →
      p = rootHtmPath ∨ p = pubHtmPath
  htm_shape : ∀ p ∈ fs.files, ".htm".data <:+ p.getLastD [] →
      p = [p.getLastD []] ∨ p = pubHtmPath
  misplaced_ok : ∀ p ∈ fs.files, p.getLastD [] = "index.html".data →
      "public".data <:+: dirString p.dropLast
  no_under_pubHtml : ∀ p ∈ fs.files, pubHtmlPath <+: p → p = pubHtmlPath
  no_under_target : ∀ p ∈ fs.files, ∀ q ∈ fs.files, p.length = 1 →
      [p.getLastD [] ++ "l".data] <+: q → q = [p.getLastD [] ++ "l".data]

/-- On a tame tree every file is one of the two index files, a pending
root-level .htm file, or contributes no deterministic fix. -/
theorem tame_classify {fs : FS} (hT : TameFS fs) :
    ∀ p ∈ fs.files, (p = pubHtmPath ∨ p = rootHtmPath) ∨
      (∃ n, Pending n ∧ p = [n]) ∨ file_fixes p = [] := by
  intro p hp
  by_cases hpub : p = pubHtmPath
  · exact Or.inl (Or.inl hpub)
  by_cases hroot : p = rootHtmPath
  · exact Or.inl (Or.inr hroot)
  have hpne : p ≠ [] := (hT.wf p hp).1
  have hbm : p.getLastD [] ∈ p := getLastD_mem hpne
  by_cases hht : ".htm".data <:+ p.getLastD []
  · rcases hT.htm_shape p hp hht with hshape | hshape
    · refine Or.inr (Or.inl ⟨p.getLastD [], ?_, hshape⟩)
      have hnih : ¬ "index.htm".data <:+: p.getLastD [] := by
        intro hc
        rcases hT.idx_only p hp _ hbm hc with h | h
        · exact hroot h
        · exact hpub h
      refine ⟨hht, ?_, (hT.no_sb p hp _ hbm).1, (hT.no_sb p hp _ hbm).2, hnih,
        fun hc => (hT.wf p hp).2 _ hbm hc⟩
      intro he
      apply hnih
      rw [he]
    · exact absurd hshape hpub
  · refine Or.inr (Or.inr (file_fixes_clean (hT.no_sb p hp _ hbm).1 hht ?_))
    exact hT.misplaced_ok p hp

/-- Every element of the deterministic fix list of a tame tree is the
hard-coded pub_fix or the rename of a pending root-level file. -/
theorem tame_fix_elems {fs : FS} (hT : TameFS fs) :
    ∀ fx ∈ fs.files.flatMap file_fixes,
      fx = pub_fix ∨ ∃ n, Pending n ∧ [n] ∈ fs.files ∧ fx = ren n := by
  intro fx hfx
  rw [List.mem_flatMap] at hfx
  obtain ⟨p, hp, hmem⟩ := hfx
  rcases tame_classify hT p hp with (rfl | rfl) | ⟨n, hP, rfl⟩ | hnil
  · rw [file_fixes_idx_pub] at hmem
    rcases List.mem_cons.mp hmem with h | h
    · exact Or.inl h
    · exact Or.inl (List.mem_singleton.mp h)
  · rw [file_fixes_idx_root] at hmem
    rcases List.mem_cons.mp hmem with h | h
    · exact Or.inl h
    · exact Or.inl (List.mem_singleton.mp h)
  · rw [file_fixes_pending hP] at hmem
    exact Or.inr ⟨n, hP, hp, List.mem_singleton.mp hmem⟩
  · rw [hnil] at hmem
    exact absurd hmem (List.not_mem_nil fx)

/-- C1 counterexample: a tree holding only a root-level index.html. The
misplaced issue it raises contains both "index.htm" and "should be", so
the fixer proposes pub_fix; applying it changes nothing (public/index.htm
does not exist), the same issue recurs on the second scan, and the second
round proposes the same non-empty fix list: the pipeline is not
idempotent. -/
theorem C1_counterexample :
    second_fixes ⟨[["index.html".data]], []⟩ = [pub_fix] ∧
    second_fixes ⟨[["index.html".data]], []⟩ ≠ [] := by decide

/-- The paths that can appear as files at any point of a run on a tame
tree: original files, public/index.html, and renamed or still-pending
root-level .htm files. -/
def Reachable (fs : FS) (p : FPath) : Prop :=
  p ∈ fs.files ∨ p = pubHtmlPath ∨
  (∃ n, Pending n ∧ p = [n ++ "l".data]) ∨ (∃ n, Pending n ∧ p = [n])

/-- The pipeline only ever probes these paths as rename sources, rename
targets or move destinations. -/
def Probed (fs : FS) (d : FPath) : Prop :=
  d = pubHtmPath ∨ d = rootHtmPath ∨ d = pubHtmlPath ∨
  (∃ m, Pending m ∧ [m] ∈ fs.files ∧ (d = [m] ∨ d = [m ++ "l".data]))

/-- On a tame tree no probed path is a proper prefix of a reachable path:
probed paths never denote directories during a run. -/
theorem no_proper_ext {fs : FS} (hT : TameFS fs) {p : FPath} (hp : Reachable fs p)
    {d : FPath} (hd : Probed fs d) (hpre : d <+: p) : p = d := by
  rcases hd with rfl | rfl | rfl | ⟨m, hPm, hmmem, (rfl | rfl)⟩
  · -- d = pubHtmPath
    rcases hp with hp | rfl | ⟨k, hPk, rfl⟩ | ⟨k, hPk, rfl⟩
    · have hidx : "index.htm".data ∈ p := hpre.sublist.subset (by decide)
      rcases hT.idx_only p hp _ hidx List.infix_rfl with rfl | rfl
      · exact absurd hpre (by decide)
      · rfl
    · exact absurd hpre (by decide)
    · exact absurd hpre (not_prefix_of_length_gt (by simp [pubHtmPath]))
    · exact absurd hpre (not_prefix_of_length_gt (by simp [pubHtmPath]))
  · -- d = rootHtmPath
    rcases hp with hp | rfl | ⟨k, hPk, rfl⟩ | ⟨k, hPk, rfl⟩
    · have hidx : "index.htm".data ∈ p := hpre.sublist.subset (by decide)
      rcases hT.idx_only p hp _ hidx List.infix_rfl with rfl | rfl
      · rfl
      · exact absurd hpre (by decide)
    · exact absurd hpre (by decide)
    · have he : "index.htm".data = k ++ "l".data := singleton_prefix_singleton hpre
      have hlast := appendl_last k
      rw [← he] at hlast
      exact absurd hlast (by decide)
    · have he : "index.htm".data = k := singleton_prefix_singleton hpre
      exact absurd (by rw [← he]) hPk.nIH
  · -- d = pubHtmlPath
    rcases hp with hp | rfl | ⟨k, hPk, rfl⟩ | ⟨k, hPk, rfl⟩
    · exact hT.no_under_pubHtml p hp hpre
    · rfl
    · exact absurd hpre (not_prefix_of_length_gt (by simp [pubHtmlPath]))
    · exact absurd hpre (not_prefix_of_length_gt (by simp [pubHtmlPath]))
  · -- d = [m]
    rcases hp with hp | rfl | ⟨k, hPk, rfl⟩ | ⟨k, hPk, rfl⟩
    · exact (hT.prefix_free [m] hmmem p hp hpre).symm
    · obtain ⟨t, ht⟩ := singleton_prefix_cons hpre
      have hm : "public".data = m := by
        have hh := congrArg (List.headD (α := Str) · []) ht
        simpa [pubHtmlPath] using hh
      have hhtm := hPm.htm
      rw [← hm] at hhtm
      exact absurd hhtm (by decide)
    · have he : m = k ++ "l".data := singleton_prefix_singleton hpre
      have hlast := htm_last hPm.htm
      rw [he, appendl_last] at hlast
      exact absurd hlast (by decide)
    · have he : m = k := singleton_prefix_singleton hpre
      rw [he]
  · -- d = [m ++ "l"]
    rcases hp with hp | rfl | ⟨k, hPk, rfl⟩ | ⟨k, hPk, rfl⟩
    · exact hT.no_under_target [m] hmmem p hp rfl hpre
    · obtain ⟨t, ht⟩ := singleton_prefix_cons hpre
      have hm : "public".data = m ++ "l".data := by
        have hh := congrArg (List.headD (α := Str) · []) ht
        simpa [pubHtmlPath] using hh
      have hlast := appendl_last m
      rw [← hm] at hlast
      exact absurd hlast (by decide)
    · have he : m ++ "l".data = k ++ "l".data := singleton_prefix_singleton hpre
      rw [he]
    · have he : m ++ "l".data = k := singleton_prefix_singleton hpre
      have hlast := htm_last hPk.htm
      rw [← he, appendl_last] at hlast
      exact absurd hlast (by decide)

/-- No probed path other than the root public directory is ever a
directory of a run state whose directories and files are controlled. -/
theorem not_isDirOf {fs cur : FS} (hT : TameFS fs)
    (hdirs : ∀ q ∈ cur.dirs, q = ["public".data])
    (hfiles : ∀ p ∈ cur.files, Reachable fs p)
    {d : FPath} (hd : Probed fs d) (hdne : d ≠ []) (hdnp : d ≠ ["public".data]) :
    ¬ isDirOf cur d := by
  rintro (h | h | ⟨f, hf, hpre, hne⟩)
  · exact hdne h
  · exact hdnp (hdirs d h)
  · exact hne (no_proper_ext hT (hfiles f hf) hd hpre).symm

/-- What is known of a file path at a point of the fix loop where the
actions of `l` are still to run: an untouched original with no fixes of
its own, the moved public/index.html, an already renamed root file, or a
still-pending root file whose rename is still in `l`. -/
def FileState (fs : FS) (l : List FixAction) (p : FPath) : Prop :=
  (p ∈ fs.files ∧ file_fixes p = []) ∨ p = pubHtmlPath ∨
  (∃ n, Pending n ∧ [n] ∈ fs.files ∧ p = [n ++ "l".data]) ∨
  (∃ n, Pending n ∧ [n] ∈ fs.files ∧ p = [n] ∧ ren n ∈ l)

theorem FileState_reach {fs : FS} {l : List FixAction} {p : FPath}
    (h : FileState fs l p) : Reachable fs p := by
  rcases h with ⟨h, -⟩ | h | ⟨n, hP, -, he⟩ | ⟨n, hP, -, he, -⟩
  · exact Or.inl h
  · exact Or.inr (Or.inl h)
  · exact Or.inr (Or.inr (Or.inl ⟨n, hP, he⟩))
  · exact Or.inr (Or.inr (Or.inr ⟨n, hP, he⟩))

theorem FileState_tail {fs : FS} {fx : FixAction} {l' : List FixAction} {p : FPath}
    (h : FileState fs (fx :: l') p)
    (hne : ∀ n, Pending n → p = [n] → fx ≠ ren n) : FileState fs l' p := by
  rcases h with h | h | h | ⟨n, hP, hmem, hpe, hin⟩
  · exact Or.inl h
  · exact Or.inr (Or.inl h)
  · exact Or.inr (Or.inr (Or.inl h))
  · rcases List.mem_cons.mp hin with he | hin'
    · exact absurd he.symm (hne n hP hpe)
    · exact Or.inr (Or.inr (Or.inr ⟨n, hP, hmem, hpe, hin'⟩))

/-- The invariant of the fix loop with remaining actions `l`. -/
def LoopInv (fs cur : FS) (l : List FixAction) : Prop :=
  (∀ q ∈ cur.dirs, q = ["public".data]) ∧
  pubHtmPath ∉ cur.files ∧ rootHtmPath ∉ cur.files ∧
  ∀ p ∈ cur.files, FileState fs l p

theorem makedirs_ne_none {fs : FS} {p : FPath}
    (h : ¬ ∃ q ∈ neInits p, q ∈ fs.files) : makedirs fs p ≠ none := by
  unfold makedirs
  rw [if_neg h]
  simp

theorem makedirs_dirs_sub {fs fs' : FS} {p : FPath} (h : makedirs fs p = some fs') :
    ∀ q ∈ fs'.dirs, q ∈ fs.dirs ∨ q ∈ neInits p := by
  unfold makedirs at h
  split at h
  · exact absurd h (by simp)
  · have he := Option.some.inj h
    intro q hq
    rw [← he] at hq
    rcases List.mem_append.mp hq with h1 | h1
    · exact Or.inl h1
    · exact Or.inr (List.mem_of_mem_filter h1)

/-- One loop iteration preserves the invariant. -/
theorem loop_step_inv {fs : FS} (hT : TameFS fs) {cur : FS} {fx : FixAction}
    {l' : List FixAction}
    (hfx : fx = pub_fix ∨ ∃ n, Pending n ∧ [n] ∈ fs.files ∧ fx = ren n)
    (hI : LoopInv fs cur (fx :: l')) : LoopInv fs (apply_one_fix cur fx).1 l' := by
  obtain ⟨hI1, hI2, hI3, hI4⟩ := hI
  have hReach : ∀ p ∈ cur.files, Reachable fs p :=
    fun p hp => FileState_reach (hI4 p hp)
  rcases hfx with rfl | ⟨m, hPm, hmmem, rfl⟩
  · -- pub_fix: always skipped, its source no longer exists
    have hpr : parseRel (pub_fix.src.dropWhile (· = '/')) = (pubHtmPath, false) := by
      decide
    have hnd : ¬ isDirOf cur pubHtmPath :=
      not_isDirOf hT hI1 hReach (Or.inl rfl) (by decide) (by decide)
    have hskip : ¬ (strPathExists cur (parseRel (pub_fix.src.dropWhile (· = '/'))) ∧
        pub_fix.src.dropWhile (· = '/') ≠ pub_fix.dst.dropWhile (· = '/')) := by
      rintro ⟨hstp, -⟩
      rw [hpr] at hstp
      have hpe : pathExists cur pubHtmPath := hstp
      rcases hpe with h | h
      · exact hI2 h
      · exact hnd h
    rw [apply_one_fix_rename_skip cur pub_fix rfl hskip]
    exact ⟨hI1, hI2, hI3, fun p hp =>
      FileState_tail (hI4 p hp) (fun n _ _ => (ren_ne_pub n).symm)⟩
  · -- a pending rename
    have hdw : m.dropWhile (· = '/') = m := dropWhile_slash_eq hPm.no_slash
    have hml : '/' ∉ m ++ "l".data := by
      intro hc
      rcases List.mem_append.mp hc with h | h
      · exact hPm.no_slash h
      · exact absurd h (by decide)
    have hmlne : m ++ "l".data ≠ [] := by simp
    have hdwl : (m ++ "l".data).dropWhile (· = '/') = m ++ "l".data :=
      dropWhile_slash_eq hml
    have hpr1 : parseRel (m.dropWhile (· = '/')) = (([m] : FPath), false) := by
      rw [hdw]
      exact parseRel_single hPm.no_slash hPm.ne_nil
    have hpr2 : parseRel ((m ++ "l".data).dropWhile (· = '/')) =
        (([m ++ "l".data] : FPath), false) := by
      rw [hdwl]
      exact parseRel_single hml hmlne
    by_cases hmem : [m] ∈ cur.files
    · -- the rename goes through
      simp only [apply_one_fix, ren, if_true]
      rw [hpr1, hpr2, hdw, hdwl]
      have hdn : dirnameOf ((([m ++ "l".data]) : FPath), false) = ([] : FPath) := rfl
      rw [hdn]
      have hmne : m ≠ m ++ "l".data := by
        intro he
        have hl := congrArg List.length he
        simp at hl
      have hstp : strPathExists cur ((([m]) : FPath), false) := Or.inl hmem
      rw [if_pos ⟨hstp, hmne⟩]
      split
      next hmk =>
        refine absurd hmk (makedirs_ne_none ?_)
        rintro ⟨q, hq, -⟩
        exact absurd hq (by simp [neInits])
      next fs1 hmk =>
        have hfs1 : fs1.files = cur.files := makedirs_files hmk
        have hfs1d : ∀ q ∈ fs1.dirs, q = ["public".data] := by
          intro q hq
          rcases makedirs_dirs_sub hmk q hq with h | h
          · exact hI1 q h
          · exact absurd h (by simp [neInits])
        have hmem1 : [m] ∈ fs1.files := by
          rw [hfs1]
          exact hmem
        have hnd : ¬ isDirOf fs1 [m ++ "l".data] := by
          refine not_isDirOf hT hfs1d ?_
            (Or.inr (Or.inr (Or.inr ⟨m, hPm, hmmem, Or.inr rfl⟩))) (by simp) ?_
          · intro p hp
            rw [hfs1] at hp
            exact hReach p hp
          · intro he
            injection he with h1 h2
            have hlast := appendl_last m
            rw [h1] at hlast
            exact absurd hlast (by decide)
        have hosr : osRename fs1 [m] [m ++ "l".data] =
            some { fs1 with files := [m ++ "l".data] ::
              fs1.files.filter (fun f => !(f == [m]) && !(f == [m ++ "l".data])) } := by
          unfold osRename
          rw [if_pos hmem1, if_neg hnd]
        split
        next hmv =>
          rw [hosr] at hmv
          exact absurd hmv (by simp)
        next fs2 hmv =>
          rw [hosr] at hmv
          have hfs2 := Option.some.inj hmv
          rw [← hfs2]
          refine ⟨fun q hq => hfs1d q hq, ?_, ?_, ?_⟩
          · intro hc
            rcases List.mem_cons.mp hc with he | hmemf
            · have hl := congrArg List.length he
              simp [pubHtmPath] at hl
            · have hpc := List.mem_of_mem_filter hmemf
              rw [hfs1] at hpc
              exact hI2 hpc
          · intro hc
            rcases List.mem_cons.mp hc with he | hmemf
            · injection he with h1 h2
              have hlast := appendl_last m
              rw [← h1] at hlast
              exact absurd hlast (by decide)
            · have hpc := List.mem_of_mem_filter hmemf
              rw [hfs1] at hpc
              exact hI3 hpc
          · intro p hp
            rcases List.mem_cons.mp hp with he | hmemf
            · exact Or.inr (Or.inr (Or.inl ⟨m, hPm, hmmem, he⟩))
            · obtain ⟨hpf, hb⟩ := List.mem_filter.mp hmemf
              simp only [Bool.and_eq_true, Bool.not_eq_eq_eq_not, Bool.not_true,
                beq_eq_false_iff_ne, ne_eq] at hb
              have hpc := hpf
              rw [hfs1] at hpc
              refine FileState_tail (hI4 p hpc) ?_
              intro n hPn hpe he'
              have hmn : m = n := ren_inj he'
              exact hb.1 (by rw [hpe, hmn])
    · -- the source is gone: the fix is skipped
      have hnd : ¬ isDirOf cur [m] := by
        refine not_isDirOf hT hI1 hReach
          (Or.inr (Or.inr (Or.inr ⟨m, hPm, hmmem, Or.inl rfl⟩))) (by simp) ?_
        intro he
        injection he with h1 h2
        have hhtm := hPm.htm
        rw [h1] at hhtm
        exact absurd hhtm (by decide)
      have hskip : ¬ (strPathExists cur (parseRel ((ren m).src.dropWhile (· = '/'))) ∧
          (ren m).src.dropWhile (· = '/') ≠ (ren m).dst.dropWhile (· = '/')) := by
        rintro ⟨hstp, -⟩
        have hstp' : strPathExists cur (parseRel (m.dropWhile (· = '/'))) := hstp
        rw [hpr1] at hstp'
        have hpe : pathExists cur [m] := hstp'
        rcases hpe with h | h
        · exact hmem h
        · exact hnd h
      rw [apply_one_fix_rename_skip cur (ren m) rfl hskip]
      refine ⟨hI1, hI2, hI3, fun p hp => FileState_tail (hI4 p hp) ?_⟩
      intro n hPn hpe he'
      apply hmem
      have hmn : m = n := ren_inj he'
      rw [hmn, ← hpe]
      exact hp

/-- One hard-coded critical move: it can only delete its source and add
public/index.html, and the only directory it creates is public. -/
theorem critical_step_sem {fs : FS} (hT : TameFS fs) {st : FS × List LogEntry}
    (hdirs : ∀ q ∈ st.1.dirs, q = ["public".data])
    (hsub : ∀ p ∈ st.1.files, Reachable fs p)
    {ft : Str × Str} {src : FPath}
    (hf1 : (parseRel ft.1).1 = src) (hf2 : (parseRel ft.2).1 = pubHtmlPath)
    (hsrc : src = pubHtmPath ∨ src = rootHtmPath) :
    (∀ q ∈ (critical_step st ft).1.dirs, q = ["public".data]) ∧
    (∀ p ∈ (critical_step st ft).1.files,
      p = pubHtmlPath ∨ (p ∈ st.1.files ∧ p ≠ src)) := by
  have hsrc_ne_nil : src ≠ [] := by
    rcases hsrc with rfl | rfl <;> decide
  have hsrc_ne_pub : src ≠ ["public".data] := by
    rcases hsrc with rfl | rfl <;> decide
  simp only [critical_step]
  rw [hf1, hf2]
  have hdl : pubHtmlPath.dropLast = [["public".data].getLastD []] := by decide
  have hdl2 : pubHtmlPath.dropLast = (["public".data] : FPath) := by decide
  rw [hdl2]
  split
  next hex =>
    have hnd_src : ¬ isDirOf st.1 src := by
      refine not_isDirOf hT hdirs hsub ?_ hsrc_ne_nil hsrc_ne_pub
      rcases hsrc with rfl | rfl
      · exact Or.inl rfl
      · exact Or.inr (Or.inl rfl)
    have hsm : src ∈ st.1.files := by
      rcases hex with h | h
      · exact h
      · exact absurd h hnd_src
    have hcond : ¬ ∃ q ∈ neInits ["public".data], q ∈ st.1.files := by
      rintro ⟨q, hq, hqf⟩
      have hq' : q = ["public".data] := by
        have hne : neInits [("public".data : Str)] = [["public".data]] := by decide
        rw [hne] at hq
        exact List.mem_singleton.mp hq
      rw [hq'] at hqf
      rcases hsub _ hqf with h | h | ⟨k, hPk, he⟩ | ⟨k, hPk, he⟩
      · exact hT.no_public_file h
      · exact absurd h (by decide)
      · injection he with h1 h2
        have hlast := appendl_last k
        rw [← h1] at hlast
        exact absurd hlast (by decide)
      · injection he with h1 h2
        have hhtm := hPk.htm
        rw [← h1] at hhtm
        exact absurd hhtm (by decide)
    split
    next hmk => exact absurd hmk (makedirs_ne_none hcond)
    next fs1 hmk =>
      have hfs1 : fs1.files = st.1.files := makedirs_files hmk
      have hfs1d : ∀ q ∈ fs1.dirs, q = ["public".data] := by
        intro q hq
        rcases makedirs_dirs_sub hmk q hq with h | h
        · exact hdirs q h
        · have hne : neInits [("public".data : Str)] = [["public".data]] := by decide
          rw [hne] at h
          exact List.mem_singleton.mp h
      have hr1 : ∀ p ∈ fs1.files, Reachable fs p := by
        intro p hp
        rw [hfs1] at hp
        exact hsub p hp
      have hnd_dst : ¬ isDirOf fs1 pubHtmlPath :=
        not_isDirOf hT hfs1d hr1 (Or.inr (Or.inr (Or.inl rfl))) (by decide) (by decide)
      have hsm1 : src ∈ fs1.files := by
        rw [hfs1]
        exact hsm
      have hmv_eq : shutil_move fs1 src pubHtmlPath =
          some { fs1 with files := pubHtmlPath ::
            fs1.files.filter (fun f => !(f == src) && !(f == pubHtmlPath)) } := by
        unfold shutil_move
        rw [if_neg hnd_dst]
        unfold osRename
        rw [if_pos hsm1, if_neg hnd_dst]
      split
      next hmv =>
        rw [hmv_eq] at hmv
        exact absurd hmv (by simp)
      next fs2 hmv =>
        rw [hmv_eq] at hmv
        have hfs2 := Option.some.inj hmv
        rw [← hfs2]
        constructor
        · exact fun q hq => hfs1d q hq
        · intro p hp
          rcases List.mem_cons.mp hp with he | hmemf
          · exact Or.inl he
          · obtain ⟨hpf, hb⟩ := List.mem_filter.mp hmemf
            simp only [Bool.and_eq_true, Bool.not_eq_eq_eq_not, Bool.not_true,
              beq_eq_false_iff_ne, ne_eq] at hb
            rw [hfs1] at hpf
            exact Or.inr ⟨hpf, hb.1⟩
  next hex =>
    constructor
    · exact hdirs
    · intro p hp
      refine Or.inr ⟨hp, ?_⟩
      intro he
      exact hex (Or.inl (he ▸ hp))

/-- After the two critical fixes: directories are at most public, neither
index.htm location survives, and the files are the originals (minus the
two sources) plus possibly public/index.html. -/
theorem critical_inv {fs : FS} (hT : TameFS fs) :
    (∀ q ∈ (apply_critical_fixes fs).1.dirs, q = ["public".data]) ∧
    pubHtmPath ∉ (apply_critical_fixes fs).1.files ∧
    rootHtmPath ∉ (apply_critical_fixes fs).1.files ∧
    ∀ p ∈ (apply_critical_fixes fs).1.files,
      p = pubHtmlPath ∨ (p ∈ fs.files ∧ p ≠ pubHtmPath ∧ p ≠ rootHtmPath) := by
  have hd0 : ∀ q ∈ ((fs, ([] : List LogEntry)) : FS × List LogEntry).1.dirs,
      q = ["public".data] := by
    intro q hq
    have hq' : q ∈ fs.dirs := hq
    rw [hT.nodirs] at hq'
    exact absurd hq' (List.not_mem_nil q)
  have hs0 : ∀ p ∈ ((fs, ([] : List LogEntry)) : FS × List LogEntry).1.files,
      Reachable fs p := fun p hp => Or.inl hp
  have hpf1 : (parseRel ((("public/index.htm".data, "public/index.html".data) :
      Str × Str)).1).1 = pubHtmPath := by decide
  have hpf2 : (parseRel ((("public/index.htm".data, "public/index.html".data) :
      Str × Str)).2).1 = pubHtmlPath := by decide
  have h1 := critical_step_sem hT hd0 hs0 hpf1 hpf2 (Or.inl rfl)
  have hs1 : ∀ p ∈ (critical_step (fs, ([] : List LogEntry))
      (("public/index.htm".data, "public/index.html".data) : Str × Str)).1.files,
      Reachable fs p := by
    intro p hp
    rcases h1.2 p hp with he | ⟨hm, -⟩
    · exact Or.inr (Or.inl he)
    · exact Or.inl hm
  have hqf1 : (parseRel ((("index.htm".data, "public/index.html".data) :
      Str × Str)).1).1 = rootHtmPath := by decide
  have hqf2 : (parseRel ((("index.htm".data, "public/index.html".data) :
      Str × Str)).2).1 = pubHtmlPath := by decide
  have h2 := critical_step_sem hT h1.1 hs1 hqf1 hqf2 (Or.inr rfl)
  have hfix : apply_critical_fixes fs = critical_step (critical_step
      (fs, ([] : List LogEntry))
      (("public/index.htm".data, "public/index.html".data) : Str × Str))
      (("index.htm".data, "public/index.html".data) : Str × Str) := rfl
  rw [hfix]
  refine ⟨h2.1, ?_, ?_, ?_⟩
  · intro hc
    rcases h2.2 _ hc with he | ⟨hm, -⟩
    · exact absurd he (by decide)
    · rcases h1.2 _ hm with he | ⟨-, hne⟩
      · exact absurd he (by decide)
      · exact hne rfl
  · intro hc
    rcases h2.2 _ hc with he | ⟨-, hne⟩
    · exact absurd he (by decide)
    · exact hne rfl
  · intro p hp
    rcases h2.2 p hp with he | ⟨hm, hner⟩
    · exact Or.inl he
    · rcases h1.2 p hm with he | ⟨hmf, hnep⟩
      · exact Or.inl he
      · exact Or.inr ⟨hmf, hnep, hner⟩

/-- The fix loop carried over the whole remaining list. -/
theorem foldl_loop_inv {fs : FS} (hT : TameFS fs) :
    ∀ (l : List FixAction) (st : FS × List LogEntry),
      (∀ fx ∈ l, fx = pub_fix ∨ ∃ n, Pending n ∧ [n] ∈ fs.files ∧ fx = ren n) →
      LoopInv fs st.1 l → LoopInv fs (l.foldl apply_fix_step st).1 [] := by
  intro l
  induction l with
  | nil => exact fun st _ h => h
  | cons fx l' ih =>
    intro st hcl hI
    simp only [List.foldl_cons]
    refine ih (apply_fix_step st fx) (fun g hg => hcl g (List.mem_cons_of_mem fx hg)) ?_
    exact loop_step_inv hT (hcl fx (List.mem_cons_self fx l')) hI

/-- C1 (amended): the deterministic pipeline is idempotent on tame trees
(see TameFS; the counterexample shows the restriction is necessary): after
one run_auto_heal pass, a second scan-and-propose round yields no fixes. -/
theorem C1_second_round_empty (fs : FS) (hT : TameFS fs) : second_fixes fs = [] := by
  by_cases hiss : scan_issues fs = []
  · simp [second_fixes, run_auto_heal, hiss, create_automatic_fixes]
  · have hrun : (run_auto_heal fs).1 =
        ((create_automatic_fixes (scan_issues fs)).foldl apply_fix_step
          (apply_critical_fixes fs)).1 := by
      simp [run_auto_heal, hiss, apply_fixes]
    have hC := critical_inv hT
    have hinit : LoopInv fs (apply_critical_fixes fs).1 (fs.files.flatMap file_fixes) := by
      refine ⟨hC.1, hC.2.1, hC.2.2.1, ?_⟩
      intro p hp
      rcases hC.2.2.2 p hp with he | ⟨hm, hne1, hne2⟩
      · exact Or.inr (Or.inl he)
      · rcases tame_classify hT p hm with (he | he) | ⟨n, hP, rfl⟩ | hnil
        · exact absurd he hne1
        · exact absurd he hne2
        · refine Or.inr (Or.inr (Or.inr ⟨n, hP, hm, rfl, ?_⟩))
          rw [List.mem_flatMap]
          refine ⟨[n], hm, ?_⟩
          rw [file_fixes_pending hP]
          exact List.mem_singleton.mpr rfl
        · exact Or.inl ⟨hm, hnil⟩
    have hfin : LoopInv fs (run_auto_heal fs).1 [] := by
      rw [hrun, create_scan_eq]
      exact foldl_loop_inv hT _ _ (tame_fix_elems hT) hinit
    unfold second_fixes
    rw [create_scan_eq]
    refine flatMap_nil_of_all ?_
    intro p hp
    rcases hfin.2.2.2 p hp with ⟨-, hnil⟩ | rfl | ⟨n, hP, -, rfl⟩ | ⟨n, -, -, -, habs⟩
    · exact hnil
    · exact file_fixes_pub_html
    · exact file_fixes_renamed hP
    · exact absurd habs (List.not_mem_nil _)

theorem C1_second_round_empty_witness :
    second_fixes ⟨[["foo.htm".data], ["public".data, "index.htm".data]], []⟩ = [] :=
  C1_second_round_empty ⟨[["foo.htm".data], ["public".data, "index.htm".data]], []⟩
    ⟨rfl, by decide, by decide, by decide, by decide, by decide, by decide, by decide,
      by decide, by decide⟩

end GeminiPipeline
